import Mathlib

/-!
# Magic-Set-Card-Downloader: download orchestration

A shallow embedding of `main.go`: the task planner (`processCard`), the image
store (`downloadImage`), the set-level planning loop and the bounded scheduler
of `downloadMultipleSetsCmd` / `downloadCardCmd`.

Conventions.
* A Go `string` is a Lean `String` (a sequence of code points). The inputs come
  from JSON decoding and from the text input, which both deliver valid UTF-8;
  every byte-level operation used by the program (`ReplaceAll`, `Contains`,
  `Split` with ASCII arguments) then agrees with the code-point-level one.
* A Go `map[string]string` is the list of its entries; `imageURIs[q]` is
  `List.lookup`, `len(m) > 0` is non-emptiness.
* A download task, in Go a closure `func() error` that calls
  `d.downloadImage(imageURL, cardName, card.Set)`, is the record of the three
  captured arguments.
-/

namespace MagicDownloader

/-! ## Data model (`main.go`, lines 36-64 and 126-131) -/

/-- Go `map[string]string`, as the list of its entries. -/
abbrev ImageMap := List (String × String)

/-- Go `type CardFace struct`. -/
structure CardFace where
  Name : String
  ImageURIs : ImageMap
  deriving DecidableEq, Repr

/-- Go `type Card struct`. -/
structure Card where
  Name : String
  Layout : String
  ImageURIs : ImageMap
  CardFaces : List CardFace
  Set : String
  PrintsSearchURI : String
  deriving DecidableEq, Repr

/-- Go `type Set struct`. -/
structure Set where
  Code : String
  Name : String
  SearchURI : String
  SetType : String
  CardCount : Int
  ReleasedAt : String
  Digital : Bool
  deriving DecidableEq, Repr

/-- Go `type Downloader struct`, without the HTTP client. -/
structure Downloader where
  maxWorkers : Int
  downloadDir : String
  quality : String
  deriving DecidableEq, Repr

/-- The closure appended by `addDownloadTask`: the arguments it will pass to
`downloadImage`. -/
structure Task where
  imageURL : String
  cardName : String
  setCode : String
  deriving DecidableEq, Repr

/-! ## String helpers of the Go standard library -/

/-- `strings.Contains(s, sub)`. -/
def strContains (s sub : String) : Bool :=
  decide (sub.data <:+: s.data)

/-- The text of `s` before the first occurrence of the non-empty `sep`
(all of `s` when `sep` does not occur): `strings.Split(s, sep)[0]`. -/
def beforeSep (sep : List Char) : List Char → List Char
  | [] => []
  | c :: cs => if sep.isPrefixOf (c :: cs) then [] else c :: beforeSep sep cs

/-- `strings.Split(s, sep)[0]` for a non-empty separator. -/
def splitHead (s sep : String) : String :=
  ⟨beforeSep sep.data s.data⟩

/-! ## Task planner: `Downloader.processCard` (lines 267-336) -/

/-- The helper `addDownloadTask` (lines 271-277): append a task unless the URL
is empty. -/
def addDownloadTask (card : Card) (tasks : List Task) (imageURL cardName : String) :
    List Task :=
  if imageURL ≠ "" then tasks ++ [⟨imageURL, cardName, card.Set⟩] else tasks

/-- The loop `for _, quality := range qualities` of `tryDownloadWithFallback`
(lines 283-288): stop at the first quality that is a key of the map. -/
def fallbackLoop (card : Card) (tasks : List Task) (imageURIs : ImageMap)
    (cardName : String) : List String → List Task
  | [] => tasks
  | quality :: rest =>
    match imageURIs.lookup quality with
    | some imageURL => addDownloadTask card tasks imageURL cardName
    | none => fallbackLoop card tasks imageURIs cardName rest

/-- The helper `tryDownloadWithFallback` (lines 280-289). -/
def tryDownloadWithFallback (d : Downloader) (card : Card) (tasks : List Task)
    (imageURIs : ImageMap) (cardName : String) : List Task :=
  fallbackLoop card tasks imageURIs cardName [d.quality, "normal", "small", "large"]

/-- The loop over `card.CardFaces` that occurs three times in `processCard`
(lines 299-303, 311-315, 322-326). -/
def facesLoop (d : Downloader) (card : Card) (tasks : List Task) :
    List CardFace → List Task
  | [] => tasks
  | face :: rest =>
    facesLoop d card
      (if face.ImageURIs.length > 0 then
        tryDownloadWithFallback d card tasks face.ImageURIs face.Name
      else tasks) rest

/-- `Downloader.processCard` (lines 267-336). -/
def processCard (d : Downloader) (card : Card) : List Task :=
  if card.Layout = "adventure" then
    tryDownloadWithFallback d card [] card.ImageURIs (splitHead card.Name " //")
  else if card.Layout = "transform" ∨ card.Layout = "modal_dfc" ∨
      card.Layout = "reversible_card" ∨ card.Layout = "double_faced_token" then
    facesLoop d card [] card.CardFaces
  else if card.Layout = "split" ∨ card.Layout = "flip" then
    if card.ImageURIs.length > 0 then
      tryDownloadWithFallback d card [] card.ImageURIs card.Name
    else
      facesLoop d card [] card.CardFaces
  else
    if strContains card.Name "//" ∧ card.CardFaces.length > 0 then
      facesLoop d card [] card.CardFaces
    else if card.ImageURIs.length > 0 then
      tryDownloadWithFallback d card [] card.ImageURIs card.Name
    else []

/-- The URL that the quality chain `[p, "normal", "small", "large"]` selects in
a map: the value at the first quality of the chain that is a key. -/
def chainURL (p : String) (m : ImageMap) : Option String :=
  ([p, "normal", "small", "large"].filterMap (fun q => m.lookup q)).head?

/-- A face (or card) mapping yields a task: the chain selects a URL and that
URL is not the empty string. -/
def yieldsTask (p : String) (m : ImageMap) : Bool :=
  match chainURL p m with
  | some url => decide (url ≠ "")
  | none => false

/-- The layouts that `processCard` does not send to its default branch. -/
def specialLayouts : List String :=
  ["adventure", "transform", "modal_dfc", "reversible_card", "double_faced_token",
    "split", "flip"]

/-! ## Image store, string part: sanitising the file name (lines 229-239) -/

/-- Go `unicode.IsSpace`: the white-space code points trimmed by
`strings.TrimSpace`. -/
def isSpace (c : Char) : Bool :=
  let n := c.toNat
  n = 0x09 || n = 0x0A || n = 0x0B || n = 0x0C || n = 0x0D || n = 0x20 ||
  n = 0x85 || n = 0xA0 || n = 0x1680 || (0x2000 ≤ n && n ≤ 0x200A) ||
  n = 0x2028 || n = 0x2029 || n = 0x202F || n = 0x205F || n = 0x3000

/-- Go `strings.TrimSpace`: drop the leading and the trailing white space. -/
def trimSpace (s : String) : String :=
  ⟨((s.data.dropWhile isSpace).reverse.dropWhile isSpace).reverse⟩

/-- The scan of `strings.ReplaceAll` for a non-empty `old`: non-overlapping
occurrences are replaced from left to right. The counter is the number of
characters of the current occurrence still to be skipped. -/
def replaceScan (old new : List Char) : Nat → List Char → List Char
  | _, [] => []
  | skip + 1, _ :: cs => replaceScan old new skip cs
  | 0, c :: cs =>
    if old.isPrefixOf (c :: cs) then new ++ replaceScan old new (old.length - 1) cs
    else c :: replaceScan old new 0 cs

/-- Go `strings.ReplaceAll(s, old, new)`. For an empty `old` Go inserts `new`
before every code point and at the end. -/
def replaceAll (s old new : String) : String :=
  if old.data = [] then ⟨new.data ++ s.data.flatMap (fun c => c :: new.data)⟩
  else ⟨replaceScan old.data new.data 0 s.data⟩

/-- The slice `invalidChars` of `downloadImage` (line 231). -/
def invalidChars : List String :=
  [":", "?", "\"", "*", "<", ">", "|", "/", "\\"]

/-- The file-name clean-up of `downloadImage` (lines 230-239): the value of
`fileName` when line 241 appends ".full.jpg" to it. -/
def sanitize (fileName : String) : String :=
  let fileName := trimSpace fileName
  let fileName := invalidChars.foldl (fun acc char => replaceAll acc char "") fileName
  let fileName := replaceAll fileName "  " " "
  let fileName := replaceAll fileName "'" ""
  replaceAll fileName "," ""

/-- The characters the sanitising step is meant to remove: the nine of
`invalidChars`, the apostrophe and the comma. -/
def strippedChars : List Char :=
  [':', '?', '"', '*', '<', '>', '|', '/', '\\', '\'', ',']

/-! ## Case mapping of the Go standard library -/

/-- The Unicode case tables of Go's package `unicode`, which are behind
`strings.ToUpper`, `strings.ToLower` and `strings.EqualFold`: the upper-case
and lower-case mapping of a code point, and equality of two code points under
simple case folding. They are a parameter of the development. -/
structure CaseTable where
  upper : Char → Char
  lower : Char → Char
  foldEq : Char → Char → Bool

/-- The case tables restricted to ASCII letters (other code points are left
alone), for evaluating the definitions on ASCII input. -/
def asciiCase : CaseTable :=
  { upper := Char.toUpper, lower := Char.toLower,
    foldEq := fun a b => a.toLower == b.toLower }

/-- Go `strings.ToUpper`. -/
def toUpper (T : CaseTable) (s : String) : String := ⟨s.data.map T.upper⟩

/-- Go `strings.ToLower`. -/
def toLower (T : CaseTable) (s : String) : String := ⟨s.data.map T.lower⟩

/-- The code-point-wise comparison of `strings.EqualFold`. -/
def equalFoldChars (T : CaseTable) : List Char → List Char → Bool
  | [], [] => true
  | a :: as, b :: bs => T.foldEq a b && equalFoldChars T as bs
  | _, _ => false

/-- Go `strings.EqualFold`. -/
def equalFold (T : CaseTable) (s t : String) : Bool :=
  equalFoldChars T s.data t.data

/-! ## Paths: Go's `path/filepath` on a Unix system

`filepath.Join`, `filepath.Clean`, `filepath.Dir` and `filepath.Base` belong to
the Go standard library. They are modelled from their documentation for a
system whose separator is `/`: `Clean` replaces repeated separators by one,
drops every `.` element, cancels every inner `..` with the element before it,
drops a `..` that would climb above the root, and returns `.` for an empty
result. -/

/-- The segments of a path between its separators (`strings.Split(p, "/")`). -/
def splitSlash : List Char → List (List Char)
  | [] => [[]]
  | c :: cs =>
    if c = '/' then [] :: splitSlash cs
    else
      match splitSlash cs with
      | [] => [[c]]
      | seg :: segs => (c :: seg) :: segs

/-- The segments joined by single separators. -/
def joinSlash : List (List Char) → List Char
  | [] => []
  | [seg] => seg
  | seg :: rest => seg ++ '/' :: joinSlash rest

/-- The elements of a path that `Clean` looks at: the segments other than the
empty one and `.`. -/
def pathElems (p : List Char) : List (List Char) :=
  (splitSlash p).filter (fun seg => decide (seg ≠ [] ∧ seg ≠ ['.']))

/-- One element processed by `Clean`: `..` removes the element before it, is
kept at the start of a relative path, and is dropped at the root. -/
def pushElem (rooted : Bool) (out : List (List Char)) (seg : List Char) :
    List (List Char) :=
  if seg = ['.', '.'] then
    match out.getLast? with
    | some top => if top = ['.', '.'] then out ++ [seg] else out.dropLast
    | none => if rooted then out else out ++ [seg]
  else out ++ [seg]

/-- The path that `Clean` writes for the remaining elements. -/
def renderPath (rooted : Bool) (out : List (List Char)) : List Char :=
  if rooted then '/' :: joinSlash out
  else if out = [] then ['.'] else joinSlash out

/-- Go `filepath.Clean` on code points. -/
def cleanChars (p : List Char) : List Char :=
  if p = [] then ['.']
  else
    let rooted := decide (p.head? = some '/')
    renderPath rooted ((pathElems p).foldl (pushElem rooted) [])

/-- Go `filepath.Clean`. -/
def filepathClean (path : String) : String := ⟨cleanChars path.data⟩

/-- Go `strings.Join(elems, "/")` on code points. -/
def joinWithSlash : List String → List Char
  | [] => []
  | [e] => e.data
  | e :: rest => e.data ++ '/' :: joinWithSlash rest

/-- Go `filepath.Join`: the elements from the first non-empty one on are joined
with separators and the result is cleaned; the empty string when every element
is empty. -/
def filepathJoin (elem : List String) : String :=
  match elem.dropWhile (fun e => decide (e = "")) with
  | [] => ""
  | rest => ⟨cleanChars (joinWithSlash rest)⟩

/-- The path up to and including its last separator (`path[:i+1]` for the index
`i` of the last `/`; empty when there is none). -/
def uptoLastSlash (p : List Char) : List Char :=
  (p.reverse.dropWhile (fun c => decide (c ≠ '/'))).reverse

/-- The path after its last separator. -/
def afterLastSlash (p : List Char) : List Char :=
  (p.reverse.takeWhile (fun c => decide (c ≠ '/'))).reverse

/-- Go `filepath.Dir`: all but the last element of the path, cleaned. -/
def filepathDir (path : String) : String := ⟨cleanChars (uptoLastSlash path.data)⟩

/-- Go `filepath.Base`: the last element of the path, after removing trailing
separators; `.` for the empty path and `/` for a path of separators only. -/
def filepathBase (path : String) : String :=
  if path.data = [] then "."
  else
    let p := (path.data.reverse.dropWhile (fun c => decide (c = '/'))).reverse
    let b := afterLastSlash p
    if b = [] then "/" else ⟨b⟩

/-- The directory of a set, line 224:
`filepath.Join(d.downloadDir, strings.ToUpper(setCode))`. -/
def setDirOf (T : CaseTable) (d : Downloader) (setCode : String) : String :=
  filepathJoin [d.downloadDir, toUpper T setCode]

/-- The destination path, line 241:
`filepath.Join(setDir, fileName+".full.jpg")` for the sanitised `fileName`. -/
def destPath (T : CaseTable) (d : Downloader) (fileName setCode : String) : String :=
  filepathJoin [setDirOf T d setCode, sanitize fileName ++ ".full.jpg"]

/-- The nine characters of `invalidChars`. -/
def illegalChars : List Char :=
  [':', '?', '"', '*', '<', '>', '|', '/', '\\']

/-- A plain file name: a non-empty segment without separator that is neither
`.` nor `..`. -/
structure PlainName (b : List Char) : Prop where
  noSlash : '/' ∉ b
  ne_nil : b ≠ []
  ne_dot : b ≠ ['.']
  ne_dotdot : b ≠ ['.', '.']

/-- The element `..`. -/
def dotdot : List Char := ['.', '.']

/-- An element as `pathElems` delivers it: non-empty, without separator, not `.`. -/
def ValidElem (seg : List Char) : Prop :=
  seg ≠ [] ∧ '/' ∉ seg ∧ seg ≠ ['.']

/-- The element lists that `Clean` ends with: valid elements, `..` only at the
start of the list, and not at all below the root. -/
def NormalElems (rooted : Bool) (out : List (List Char)) : Prop :=
  (∀ seg ∈ out, ValidElem seg) ∧
  List.Chain' (fun a b => b = dotdot → a = dotdot) out ∧
  (rooted = true → out.head? ≠ some dotdot)

/-! ## Image store: `Downloader.downloadImage` (lines 223-265)

The function acts on the file system and on the network. The file system is a
state: the paths of the directories and the files (with their contents) that
exist; paths are the strings the program passes to the `os` functions. The log
of the URLs requested with `client.Get` is part of the state, so that "no
network request" is "the log did not grow". What the network answers and
whether the operating system lets a directory or a file be created is chosen by
the environment. -/

/-- The world the image store acts on. -/
structure World where
  /-- paths of the existing directories (besides `.` and `/`) -/
  dirs : List String
  /-- paths and contents of the existing regular files -/
  files : List (String × String)
  /-- URLs requested with `client.Get`, oldest first -/
  requests : List String
  deriving DecidableEq, Repr

/-- The choices of the environment during one call of `downloadImage`. -/
structure Env where
  /-- `client.Get(url)`: a transport error, or the status code and the body -/
  get : String → Except String (Nat × String)
  /-- creating the missing directories of a path fails -/
  mkdirFails : String → Bool
  /-- `os.Create(path)` fails -/
  createFails : String → Bool
  /-- `io.Copy` of a body: what reaches the file, and whether it returns `nil` -/
  copy : String → String × Bool

/-- The path is an existing directory. The working directory and the root
always exist. -/
def World.isDir (w : World) (path : String) : Bool :=
  path = "." || path = "/" || w.dirs.contains path

/-- The path is an existing regular file. -/
def World.isFile (w : World) (path : String) : Bool :=
  (w.files.map Prod.fst).contains path

/-- `os.Stat(path)` returns no error: something exists at the path. -/
def World.stat (w : World) (path : String) : Bool :=
  w.isDir path || w.isFile path

/-- Every file lies in an existing directory. -/
def World.WellFormed (w : World) : Prop :=
  ∀ path ∈ w.files.map Prod.fst, w.isDir (filepathDir path) = true

instance (w : World) : Decidable w.WellFormed := by
  unfold World.WellFormed
  infer_instance

/-- The path and its ancestors, up to the working directory or the root. -/
def dirChain : Nat → String → List String
  | 0, _ => []
  | fuel + 1, path =>
    if path = "." ∨ path = "/" then [] else path :: dirChain fuel (filepathDir path)

/-- Go `os.MkdirAll(path, 0755)`, from its documentation: when the path is
already a directory it does nothing and returns `nil`; when a file is in the
way, the path is empty or the system refuses, it returns an error; otherwise it
creates the directory along with the missing parents. The result is
`err == nil` and the new world. -/
def mkdirAll (env : Env) (w : World) (path : String) : Bool × World :=
  if w.isDir path then (true, w)
  else if path = "" ∨ w.isFile path ∨ env.mkdirFails path then (false, w)
  else (true, { w with
    dirs := (dirChain (path.length + 1) path).filter (fun p => !w.isDir p) ++ w.dirs })

/-- `Downloader.downloadImage` (lines 223-265): the returned error (`none` for
`nil`) and the world after the call. -/
def downloadImage (T : CaseTable) (env : Env) (d : Downloader) (w : World)
    (url fileName setCode : String) : Option String × World :=
  let setDir := filepathJoin [d.downloadDir, toUpper T setCode]
  match mkdirAll env w setDir with
  | (false, w) => (some ("erro ao criar diretório " ++ setDir), w)
  | (true, w) =>
    let fileName := sanitize fileName
    let filePath := filepathJoin [setDir, fileName ++ ".full.jpg"]
    if w.stat filePath then (none, w)
    else
      let w := { w with requests := w.requests ++ [url] }
      match env.get url with
      | .error _ => (some ("erro ao baixar " ++ fileName), w)
      | .ok (status, body) =>
        if status ≠ 200 then
          (some ("falha no download " ++ fileName ++ ": HTTP " ++ toString status), w)
        else if env.createFails filePath then
          (some ("erro ao criar arquivo " ++ filePath), w)
        else
          let (written, ok) := env.copy body
          let w := { w with
            files := (filePath, written) :: w.files.filter (fun f => f.1 ≠ filePath) }
          (if ok then none else some "io.Copy", w)

/-- An environment in which every request fails. -/
def offlineEnv : Env :=
  { get := fun _ => .error "offline", mkdirFails := fun _ => true,
    createFails := fun _ => true, copy := fun _ => ("", false) }

/-- An environment that serves every URL with the body "img". -/
def onlineEnv : Env :=
  { get := fun _ => .ok (200, "img"), mkdirFails := fun _ => false,
    createFails := fun _ => false, copy := fun body => (body, true) }

/-- A world in which the image of "Opt" of set "dom" is already stored. -/
def demoWorld : World :=
  { dirs := ["downloads", "downloads/DOM"],
    files := [("downloads/DOM/Opt.full.jpg", "img")],
    requests := [] }

/-- The downloader that `initialModel` builds. -/
def demoDownloader : Downloader :=
  { maxWorkers := 10, downloadDir := "./downloads", quality := "large" }

/-! ## Execution scheduler (lines 870-888 and 939-957)

Both commands run the task list with the same code: the main flow starts one
goroutine per task (`wg.Add(1); go func(t) ...`) and then blocks in
`wg.Wait()`; each goroutine sends on the buffered channel `semaphore`
(capacity `maxWorkers`), calls its task, adds to `successCount` when the task
returned `nil`, adds to `completedTasks`, and on exit receives from the
channel and calls `wg.Done()`. The model is an interleaving semantics: a state
holds the program counter of every goroutine and the shared variables, and one
step is one of the atomic operations above. What a task returns is chosen by
the environment. -/

/-- Program counter of the goroutine of one task (lines 876-885). The flag
carried from `called` on is `err == nil` for the task's call. -/
inductive GPC
  /-- started, about to send on the semaphore (line 878) -/
  | spawned
  /-- holds a slot, about to call `t()` (line 881) -/
  | acquired
  /-- `t()` has returned, about to add to `successCount` (line 882) -/
  | called (ok : Bool)
  /-- about to add to `completedTasks` (line 884) -/
  | counted (ok : Bool)
  /-- about to run the deferred receive from the semaphore (line 879) -/
  | completed (ok : Bool)
  /-- about to run the deferred `wg.Done()` (line 877) -/
  | released (ok : Bool)
  /-- finished -/
  | done (ok : Bool)
  deriving DecidableEq, Repr

/-- State of one batch run. Goroutine `i` runs task `i`; `gs` lists the
goroutines started so far. -/
structure Sched where
  gs : List GPC
  /-- number of items in the channel `semaphore` -/
  semaphore : Nat
  /-- counter of the `sync.WaitGroup` -/
  wg : Nat
  successCount : Nat
  completedTasks : Nat
  /-- `wg.Wait()` has returned -/
  returned : Bool
  deriving DecidableEq, Repr

/-- The atomic operations of a run. -/
inductive Action
  /-- main flow: `wg.Add(1)` and `go func(t)` for the next task -/
  | spawn
  /-- goroutine `i`: `semaphore <- struct{}{}` -/
  | acquire (i : Nat)
  /-- goroutine `i`: `t()` returns, with `err == nil` being `ok` -/
  | call (i : Nat) (ok : Bool)
  /-- goroutine `i`: `atomic.AddInt64(&successCount, 1)` if the call succeeded -/
  | count (i : Nat)
  /-- goroutine `i`: `atomic.AddInt64(&m.completedTasks, 1)` -/
  | complete (i : Nat)
  /-- goroutine `i`: deferred `<-semaphore` -/
  | release (i : Nat)
  /-- goroutine `i`: deferred `wg.Done()` -/
  | wgDone (i : Nat)
  /-- main flow: `wg.Wait()` returns -/
  | waitReturn
  deriving DecidableEq, Repr

/-- The state after `atomic.StoreInt64(&m.completedTasks, 0)` and the
creation of the channel, the wait group and `successCount`. -/
def Sched.init : Sched :=
  { gs := [], semaphore := 0, wg := 0, successCount := 0, completedTasks := 0,
    returned := false }

/-- One atomic step of a run of `n` tasks with a channel of capacity `C`;
`none` when the operation is not enabled (a send on a full channel blocks,
`wg.Wait()` blocks while the counter is positive). -/
def step (n C : Nat) : Action → Sched → Option Sched
  | .spawn, s =>
    if s.returned = false ∧ s.gs.length < n then
      some { s with gs := s.gs ++ [GPC.spawned], wg := s.wg + 1 }
    else none
  | .acquire i, s =>
    match s.gs[i]? with
    | some .spawned =>
      if s.semaphore < C then
        some { s with gs := s.gs.set i .acquired, semaphore := s.semaphore + 1 }
      else none
    | _ => none
  | .call i ok, s =>
    match s.gs[i]? with
    | some .acquired => some { s with gs := s.gs.set i (.called ok) }
    | _ => none
  | .count i, s =>
    match s.gs[i]? with
    | some (.called ok) =>
      some { s with gs := s.gs.set i (.counted ok),
                    successCount := s.successCount + (if ok then 1 else 0) }
    | _ => none
  | .complete i, s =>
    match s.gs[i]? with
    | some (.counted ok) =>
      some { s with gs := s.gs.set i (.completed ok),
                    completedTasks := s.completedTasks + 1 }
    | _ => none
  | .release i, s =>
    match s.gs[i]? with
    | some (.completed ok) =>
      some { s with gs := s.gs.set i (.released ok), semaphore := s.semaphore - 1 }
    | _ => none
  | .wgDone i, s =>
    match s.gs[i]? with
    | some (.released ok) =>
      some { s with gs := s.gs.set i (.done ok), wg := s.wg - 1 }
    | _ => none
  | .waitReturn, s =>
    if s.returned = false ∧ s.gs.length = n ∧ s.wg = 0 then
      some { s with returned := true }
    else none

/-- Run a schedule: the listed operations, one after the other. -/
def exec (n C : Nat) : List Action → Sched → Option Sched
  | [], s => some s
  | a :: rest, s => (step n C a s).bind (exec n C rest)

/-- The states some schedule reaches from the initial state. -/
def Reachable (n C : Nat) (s : Sched) : Prop :=
  ∃ acts : List Action, exec n C acts Sched.init = some s

/-- The goroutine holds a slot of the semaphore: it has sent on the channel and
not yet received from it. -/
def GPC.holds : GPC → Bool
  | .acquired | .called _ | .counted _ | .completed _ => true
  | _ => false

/-- The goroutine has not yet called `wg.Done()`. -/
def GPC.live : GPC → Bool
  | .done _ => false
  | _ => true

/-- The goroutine has added its success to `successCount`. -/
def GPC.succeeded : GPC → Bool
  | .counted ok | .completed ok | .released ok | .done ok => ok
  | _ => false

/-- The goroutine has added to `completedTasks`. -/
def GPC.finished : GPC → Bool
  | .completed _ | .released _ | .done _ => true
  | _ => false

/-- The goroutine's call of its task has returned. -/
def GPC.hasCalled : GPC → Bool
  | .spawned | .acquired => false
  | _ => true

/-- The goroutine is finished and its task returned no error. -/
def GPC.doneOk : GPC → Bool
  | .done ok => ok
  | _ => false

/-- Number of tasks executing concurrently: goroutines holding a slot. -/
def Sched.inFlight (s : Sched) : Nat := s.gs.countP GPC.holds

/-- How often the task of goroutine `i` is called in a schedule. -/
def callCount (i : Nat) (acts : List Action) : Nat :=
  acts.countP (fun a => match a with
    | .call j _ => decide (j = i)
    | _ => false)

/-- A schedule for five tasks and a channel of capacity two: tasks 0 and 1 run
together, task 1 fails, and the others follow as slots are freed. -/
def demoSchedule : List Action :=
  [.spawn, .spawn, .acquire 1, .spawn, .acquire 0, .call 0 true, .spawn, .spawn,
   .call 1 false, .count 1, .count 0, .complete 0, .release 0, .acquire 4,
   .complete 1, .wgDone 0, .release 1, .wgDone 1, .acquire 2, .call 4 true,
   .call 2 true, .count 2, .count 4, .complete 4, .complete 2, .release 2,
   .acquire 3, .release 4, .wgDone 4, .wgDone 2, .call 3 false, .count 3,
   .complete 3, .release 3, .wgDone 3, .waitReturn]

/-- The invariant of a run: the shared variables count the goroutines in the
corresponding program-counter ranges. -/
structure Inv (n C : Nat) (s : Sched) : Prop where
  sem : s.semaphore = s.gs.countP GPC.holds
  wg : s.wg = s.gs.countP GPC.live
  succ : s.successCount = s.gs.countP GPC.succeeded
  fin : s.completedTasks = s.gs.countP GPC.finished
  len : s.gs.length ≤ n
  cap : s.semaphore ≤ C
  ret : s.returned = true → s.gs.length = n ∧ s.wg = 0

/-- Has the call of task `i` returned in state `s` (1) or not (0). -/
def calledBit (s : Sched) (i : Nat) : Nat :=
  match s.gs[i]? with
  | some g => if g.hasCalled then 1 else 0
  | none => 0

/-- The goroutine's call of its task has returned without error. -/
def GPC.calledOk : GPC → Bool
  | .called ok | .counted ok | .completed ok | .released ok | .done ok => ok
  | _ => false

/-- How many calls of a task return without error in a schedule. -/
def okCallCount (acts : List Action) : Nat :=
  acts.countP (fun a => match a with
    | .call _ ok => ok
    | _ => false)

/-- The state after the first five operations of `demoSchedule`: tasks 0 and 1
hold the two slots, task 2 waits. -/
def demoMidRun : Sched :=
  { gs := [.acquired, .acquired, .spawned],
    semaphore := 2, wg := 3, successCount := 0, completedTasks := 0, returned := false }

/-- The fields of Go's `type model struct` that the download commands use.
`downloader` is a pointer in Go; the commands only read through it. -/
structure Model where
  sets : List Set
  downloadDir : String
  quality : String
  maxWorkers : Int
  downloader : Downloader
  totalTasks : Int
  completedTasks : Int
  deriving DecidableEq, Repr

/-- Go `type downloadCompleteMsg struct`. -/
structure DownloadCompleteMsg where
  success : Bool
  message : String
  completed : List String
  failed : List String
  deriving DecidableEq, Repr

/-- The messages a download command returns: `downloadCompleteMsg` or
`errorMsg`. -/
inductive Msg
  | downloadComplete (msg : DownloadCompleteMsg)
  | error (err : String)
  deriving DecidableEq, Repr

/-- The normalisation of a requested code (lines 836 and 891):
`strings.TrimSpace(strings.ToLower(setCode))`. -/
def normCode (T : CaseTable) (setCode : String) : String :=
  trimSpace (toLower T setCode)

/-- The search loop of lines 838-844 and 892-898: the first set of the catalog
whose code equals `setCode` under case folding (`targetSet`, `none` for `nil`). -/
def findSet (T : CaseTable) (sets : List Set) (setCode : String) : Option Set :=
  sets.find? (fun set => equalFold T set.Code setCode)

/-- The loop `for _, card := range cards` (lines 857-860 and 931-934). -/
def appendCardTasks (d : Downloader) (allTasks : List Task) : List Card → List Task
  | [] => allTasks
  | card :: rest => appendCardTasks d (allTasks ++ processCard d card) rest

/-- The planning loop of `downloadMultipleSetsCmd` (lines 835-861), on the pair
`(failed, allTasks)`. `fetchSetCards` is the catalog request for the card
listing at a search URI, which answers with the cards or with an error. -/
def planSets (T : CaseTable) (m : Model) (fetchSetCards : String → Except String (List Card)) :
    List String → List String × List Task → List String × List Task
  | [], acc => acc
  | setCode :: rest, (failed, allTasks) =>
    let setCode := normCode T setCode
    match findSet T m.sets setCode with
    | none => planSets T m fetchSetCards rest (failed ++ [setCode], allTasks)
    | some targetSet =>
      match fetchSetCards targetSet.SearchURI with
      | .error _ => planSets T m fetchSetCards rest (failed ++ [setCode], allTasks)
      | .ok cards =>
        planSets T m fetchSetCards rest (failed, appendCardTasks m.downloader allTasks cards)

/-- The loop of lines 890-902 that fills `completed`. -/
def completedLoop (T : CaseTable) (m : Model) : List String → List String → List String
  | [], completed => completed
  | setCode :: rest, completed =>
    let setCode := normCode T setCode
    match findSet T m.sets setCode with
    | some _ => completedLoop T m rest (completed ++ [setCode])
    | none => completedLoop T m rest completed

/-- The capacity of the channel created by `make(chan struct{}, m.maxWorkers)`. -/
def Model.capacity (m : Model) : Nat := m.maxWorkers.toNat

/-- `model.downloadMultipleSetsCmd` (lines 830-916): the command's copy of the
model when the command returns, and the message it returns. `fin` is the
scheduler state in which `wg.Wait()` returned, a state reached by a run of
`allTasks.length` tasks with capacity `m.capacity`; the command reads its
counters. -/
def downloadMultipleSetsCmd (T : CaseTable) (m : Model)
    (fetchSetCards : String → Except String (List Card)) (setCodes : List String)
    (fin : Sched) : Model × Msg :=
  let (failed, allTasks) := planSets T m fetchSetCards setCodes ([], [])
  let m := { m with totalTasks := allTasks.length, completedTasks := 0 }
  if allTasks.length = 0 then
    (m, .downloadComplete
      { success := false, message := "Nenhuma tarefa para executar",
        completed := [], failed := setCodes })
  else
    let m := { m with completedTasks := fin.completedTasks }
    let successCount := fin.successCount
    let completed := completedLoop T m setCodes []
    let successMsg :=
      if setCodes.length > 1 then
        "Download de " ++ toString setCodes.length ++ " sets finalizado: " ++
          toString successCount ++ " imagens processadas"
      else "Download finalizado: " ++ toString successCount ++ " imagens processadas"
    (m, .downloadComplete
      { success := decide (successCount > 0), message := successMsg,
        completed := completed, failed := failed })

/-- `model.downloadCardCmd` (lines 918-967). `fetchCard` is the fuzzy lookup of
a card by name and `fetchSetCards` the listing of its prints; `fin` is the
scheduler state in which `wg.Wait()` returned. -/
def downloadCardCmd (m : Model) (fetchCard : String → Except String Card)
    (fetchSetCards : String → Except String (List Card)) (cardName : String)
    (fin : Sched) : Model × Msg :=
  match fetchCard cardName with
  | .error err => (m, .error err)
  | .ok card =>
    match fetchSetCards card.PrintsSearchURI with
    | .error err => (m, .error err)
    | .ok prints =>
      let allTasks := appendCardTasks m.downloader [] prints
      let m := { m with totalTasks := allTasks.length, completedTasks := fin.completedTasks }
      let successCount := fin.successCount
      let successMsg := "✅ " ++ toString successCount ++ "/" ++ toString allTasks.length ++
        " imagens baixadas para " ++ "'" ++ card.Name ++ "'"
      (m, .downloadComplete
        { success := decide (successCount > 0), message := successMsg,
          completed := [card.Name], failed := [] })

/-- A requested code is recognised: after trimming and lower-casing it equals
the code of some set of the catalog under case folding. -/
def recognized (T : CaseTable) (m : Model) (setCode : String) : Bool :=
  m.sets.any (fun set => equalFold T set.Code (normCode T setCode))

/-- The card listing of the set that a recognised code resolves to (empty when
the code is not recognised or the listing fails). -/
def cardsOf (T : CaseTable) (m : Model) (fetchSetCards : String → Except String (List Card))
    (setCode : String) : List Card :=
  match findSet T m.sets (normCode T setCode) with
  | none => []
  | some targetSet =>
    match fetchSetCards targetSet.SearchURI with
    | .error _ => []
    | .ok cards => cards

/-- The card listing of a recognised code fails. -/
def listingFails (T : CaseTable) (m : Model)
    (fetchSetCards : String → Except String (List Card)) (setCode : String) : Bool :=
  match findSet T m.sets (normCode T setCode) with
  | none => false
  | some targetSet =>
    match fetchSetCards targetSet.SearchURI with
    | .error _ => true
    | .ok _ => false

/-- A catalog with the set "dom". -/
def demoSets : List Set :=
  [{ Code := "dom", Name := "Dominaria", SearchURI := "uri-dom", SetType := "expansion",
     CardCount := 2, ReleasedAt := "2018-04-27", Digital := false }]

/-- A model as `initialModel` builds it, with the catalog `demoSets`. -/
def demoModel : Model :=
  { sets := demoSets, downloadDir := "./downloads", quality := "large", maxWorkers := 10,
    downloader := { maxWorkers := 10, downloadDir := "./downloads", quality := "large" },
    totalTasks := 0, completedTasks := 0 }

/-- A listing service that knows the two cards of "dom". -/
def demoFetch (uri : String) : Except String (List Card) :=
  if uri = "uri-dom" then
    .ok [{ Name := "Llanowar Elves", Layout := "normal", ImageURIs := [("large", "u-elves")],
           CardFaces := [], Set := "dom", PrintsSearchURI := "" },
         { Name := "Opt", Layout := "normal", ImageURIs := [("large", "u-opt")],
           CardFaces := [], Set := "dom", PrintsSearchURI := "" }]
  else .error "erro ao buscar cartas do set"

/-- A listing service for which "dom" has no cards. -/
def emptyFetch (_uri : String) : Except String (List Card) := .ok []

/-- A scheduler state in which `wg.Wait()` has returned after two tasks, the
first successful and the second failed. -/
def demoFinalTwo : Sched :=
  { gs := [.done true, .done false], semaphore := 0, wg := 0, successCount := 1,
    completedTasks := 2, returned := true }

/-! ## The program model and `Update` (lines 66-124 and 338-645)

`Update`, `tickProgress` and the download commands are methods with a value
receiver (`func (m model) ...`): each call works on its own copy of the model.
`Update` returns its copy, which becomes the program's model, together with
commands; a command created by `m.tickProgress()` or
`m.downloadMultipleSetsCmd(...)` holds the copy of `m` taken when it was
created. The widgets of the `bubbles` library are outside the repository: a
text input is the record of what the program reads and sets, its reaction to a
key and `SetValue` are chosen by the environment, and the spinner, the
progress bar and the list widget (but for its items) carry no state here. -/

/-- Go `type state int` and its constants (lines 80-89). -/
inductive State
  | menuState
  | setListState
  | setSearchState
  | setDownloadState
  | cardDownloadState
  | configState
  deriving DecidableEq, Repr

/-- What the program uses of a `textinput.Model`. -/
structure TextInput where
  value : String
  placeholder : String
  focused : Bool
  charLimit : Nat
  width : Nat
  deriving DecidableEq, Repr

/-- Go `type model struct` (lines 107-124). The fields the download commands
use are those of `Model`; `setListItems` is what `m.setList.SetItems` stored. -/
structure model extends Model where
  state : State
  textInput : TextInput
  searchInput : TextInput
  setListItems : List Set
  currentMenu : Int
  menuOptions : List String
  logs : List String
  deriving DecidableEq, Repr

/-- The messages `Update` distinguishes (lines 66-77 and `tea.KeyMsg`); `key s`
is a key message whose `String()` is `s`, `other` any other message. -/
inductive TeaMsg
  | key (s : String)
  | setListMsg (sets : List Set)
  | progressUpdateMsg (current total : Int) (message : String)
  | downloadCompleteMsg (msg : DownloadCompleteMsg)
  | errorMsg (err : String)
  | other
  deriving DecidableEq, Repr

/-- The commands `Update` returns. A command made by a method of the model holds
the copy of the model it was called on. `widget` is a command handed out by a
`bubbles` widget. `tea.Batch` of several commands is the list of them, `nil`
the empty list. -/
inductive Cmd
  | quit
  | spinnerTick
  | widget
  | tickProgress (m : model)
  | fetchSetsCmd (m : model)
  | downloadMultipleSetsCmd (m : model) (setCodes : List String)
  | downloadCardCmd (m : model) (cardName : String)
  deriving DecidableEq, Repr

/-- What `Update` takes from outside the repository: the reaction of a text
input to a key (`textinput.Model.Update`), `textinput.Model.SetValue`, the
result of `os.MkdirAll(value, 0755)` (the error text, `none` for `nil`), and
the rendering of the two `lipgloss` styles used in the log. -/
structure UIEnv where
  textInputUpdate : TextInput → String → TextInput
  setValue : TextInput → String → TextInput
  mkdirAll : String → Option String
  errorStyle : String → String
  successStyle : String → String

/-- Go `strings.Split(s, sep)` for a one-character separator, on code points. -/
def splitOnChar (sep : Char) : List Char → List (List Char)
  | [] => [[]]
  | c :: cs =>
    if c = sep then [] :: splitOnChar sep cs
    else
      match splitOnChar sep cs with
      | [] => [[c]]
      | seg :: segs => (c :: seg) :: segs

/-- Go `strings.Split(s, ",")`. -/
def splitComma (s : String) : List String :=
  (splitOnChar ',' s.data).map String.mk

/-- Go `strconv.Atoi` for a 64-bit `int`: an optional sign followed by one or
more decimal digits, with a value in the range of `int`; `none` is an error. -/
def atoi (s : String) : Option Int :=
  let body : Bool × List Char :=
    match s.data with
    | '+' :: rest => (false, rest)
    | '-' :: rest => (true, rest)
    | rest => (false, rest)
  if body.2 = [] ∨ body.2.all Char.isDigit = false then none
  else
    let n : Nat := body.2.foldl (fun acc c => 10 * acc + (c.toNat - '0'.toNat)) 0
    let v : Int := if body.1 then -(n : Int) else (n : Int)
    if -(2 ^ 63 : Int) ≤ v ∧ v ≤ 2 ^ 63 - 1 then some v else none

/-- `model.updateDownloaderConfig` (lines 142-146). -/
def updateDownloaderConfig (m : model) : model :=
  { m with downloader :=
      { m.downloader with downloadDir := m.downloadDir, quality := m.quality,
                          maxWorkers := m.maxWorkers } }

/-- `model.updateSetList` (lines 647-657). -/
def updateSetList (T : CaseTable) (m : model) (filter : String) : model :=
  { m with setListItems := m.sets.filter (fun set =>
      decide (filter = "") ||
      strContains (toLower T set.Code) (toLower T filter) ||
      strContains (toLower T set.Name) (toLower T filter) ||
      strContains (toLower T set.SetType) (toLower T filter)) }

/-- The slice expression `m.logs[len(m.logs)-n:]` guarded by
`len(m.logs) > n`. -/
def lastLogs (n : Nat) (logs : List String) : List String :=
  if logs.length > n then logs.drop (logs.length - n) else logs

/-- The message the command of `model.tickProgress` delivers (lines 379-385):
the counters of the copy of the model the command holds. -/
def tickProgressMsg (m : model) : TeaMsg :=
  .progressUpdateMsg m.completedTasks m.totalTasks
    ("Baixando... " ++ toString m.completedTasks ++ "/" ++ toString m.totalTasks)

/-- The progress read of `tickProgress` (lines 381-382) and of `renderDownload`
(lines 741-742): `(completedTasks, totalTasks)` of the model it is called on. -/
def progressRead (m : model) : Int × Int :=
  (m.completedTasks, m.totalTasks)

/-- `initialModel` (lines 338-375). -/
def initialModel : model :=
  { state := .menuState,
    textInput := { value := "", placeholder := "Digite aqui...", focused := false,
                   charLimit := 200, width := 60 },
    searchInput := { value := "", placeholder := "Buscar sets...", focused := false,
                     charLimit := 50, width := 40 },
    setListItems := [],
    sets := [],
    currentMenu := 0,
    menuOptions := ["🎴 Download por Set", "🃏 Download por Carta", "📋 Listar/Buscar Sets",
                    "⚙️ Configurações", "🚪 Sair"],
    downloadDir := "./downloads",
    quality := "large",
    maxWorkers := 10,
    logs := [],
    downloader := { maxWorkers := 10, downloadDir := "./downloads", quality := "large" },
    totalTasks := 0,
    completedTasks := 0 }

/-- `Update`, key message in `menuState` (lines 391-433). -/
def updateMenuKey (T : CaseTable) (E : UIEnv) (m : model) (key : String) :
    model × List Cmd :=
  if key = "up" ∨ key = "k" then
    (if m.currentMenu > 0 then { m with currentMenu := m.currentMenu - 1 } else m, [])
  else if key = "down" ∨ key = "j" then
    (if m.currentMenu < (m.menuOptions.length : Int) - 1 then
      { m with currentMenu := m.currentMenu + 1 } else m, [])
  else if key = "enter" then
    if m.currentMenu = 0 then
      let m := { m with
        state := .setDownloadState,
        textInput := { E.setValue m.textInput "" with
          placeholder :=
            "Códigos dos sets separados por vírgula (ex: dom,war,m21) ou 'ALL' para todos",
          focused := true } }
      if m.sets.length = 0 then (m, [.fetchSetsCmd m]) else (m, [])
    else if m.currentMenu = 1 then
      ({ m with
        state := .cardDownloadState,
        textInput := { E.setValue m.textInput "" with
          placeholder := "Nome da carta (ex: Lightning Bolt)", focused := true } }, [])
    else if m.currentMenu = 2 then
      let m := { m with
        state := .setSearchState,
        searchInput := { E.setValue m.searchInput "" with focused := true } }
      if m.sets.length = 0 then (m, [.fetchSetsCmd m]) else (updateSetList T m "", [])
    else if m.currentMenu = 3 then
      ({ m with state := .configState, currentMenu := 0 }, [])
    else if m.currentMenu = 4 then (m, [.quit])
    else (m, [])
  else if key = "q" ∨ key = "ctrl+c" then (m, [.quit])
  else (m, [])

/-- `Update`, key message in `setSearchState` (lines 435-449). -/
def updateSetSearchKey (T : CaseTable) (E : UIEnv) (m : model) (key : String) :
    model × List Cmd :=
  if key = "esc" then
    ({ m with state := .menuState, searchInput := { m.searchInput with focused := false } }, [])
  else
    let m := { m with searchInput := E.textInputUpdate m.searchInput key }
    let m := if key ≠ "enter" then updateSetList T m m.searchInput.value else m
    (m, [.widget, .widget])

/-- `Update`, key message in `setDownloadState` (lines 451-489). -/
def updateSetDownloadKey (T : CaseTable) (E : UIEnv) (m : model) (key : String) :
    model × List Cmd :=
  if key = "enter" then
    let input := trimSpace m.textInput.value
    if input ≠ "" then
      let m := { m with state := .setListState, logs := [], totalTasks := 0,
                        completedTasks := 0 }
      if toUpper T input = "ALL" then
        let allCodes := (m.sets.filter (fun set => !set.Digital)).map (fun set => set.Code)
        let m := { m with logs := m.logs ++
          ["🚀 Iniciando download de TODOS os sets (" ++ toString allCodes.length ++ " sets)"] }
        (m, [.spinnerTick, .tickProgress m, .downloadMultipleSetsCmd m allCodes])
      else
        let codes := splitComma input
        let cleanCodes := (codes.map trimSpace).filter (fun clean => decide (clean ≠ ""))
        let m := { m with logs := m.logs ++
          ["🚀 Iniciando download de " ++ toString cleanCodes.length ++ " sets: " ++
            String.intercalate ", " cleanCodes] }
        (m, [.spinnerTick, .tickProgress m, .downloadMultipleSetsCmd m cleanCodes])
    else (m, [])
  else if key = "esc" then
    ({ m with state := .menuState, textInput := { m.textInput with focused := false } }, [])
  else
    ({ m with textInput := E.textInputUpdate m.textInput key }, [.widget])

/-- `Update`, key message in `cardDownloadState` (lines 491-508). -/
def updateCardDownloadKey (E : UIEnv) (m : model) (key : String) : model × List Cmd :=
  if key = "enter" then
    let cardName := trimSpace m.textInput.value
    if cardName ≠ "" then
      let m := { m with state := .setListState, logs := [], totalTasks := 0,
                        completedTasks := 0 }
      (m, [.spinnerTick, .tickProgress m, .downloadCardCmd m cardName])
    else (m, [])
  else if key = "esc" then
    ({ m with state := .menuState, textInput := { m.textInput with focused := false } }, [])
  else
    ({ m with textInput := E.textInputUpdate m.textInput key }, [.widget])

/-- The quality that follows the current one in `["small", "normal", "large"]`
(lines 568-577); an unknown quality counts as the first. -/
def nextQuality (quality : String) : String :=
  if quality = "small" then "normal"
  else if quality = "normal" then "large"
  else if quality = "large" then "small"
  else "normal"

/-- `Update`, key "enter" in `configState` while a value is being edited
(lines 532-559). -/
def configCommit (E : UIEnv) (m : model) : model :=
  let value := trimSpace m.textInput.value
  let m :=
    if m.currentMenu = 0 then
      if value ≠ "" then
        match E.mkdirAll value with
        | some err =>
          { m with logs := m.logs ++ [E.errorStyle ("❌ Erro ao acessar pasta: " ++ err)] }
        | none =>
          let m := updateDownloaderConfig { m with downloadDir := value }
          { m with logs := m.logs ++ [E.successStyle ("✅ Pasta alterada para: " ++ value)] }
      else m
    else if m.currentMenu = 2 then
      match atoi value with
      | some workers =>
        if workers > 0 ∧ workers ≤ 50 then
          let m := updateDownloaderConfig { m with maxWorkers := workers }
          { m with logs := m.logs ++
            [E.successStyle ("✅ Workers alterados para: " ++ toString workers)] }
        else
          { m with logs := m.logs ++
            [E.errorStyle "⚠️ Número de workers deve ser entre 1 e 50"] }
      | none =>
        { m with logs := m.logs ++
          [E.errorStyle "⚠️ Número de workers deve ser entre 1 e 50"] }
    else m
  let m := { m with textInput := { m.textInput with focused := false } }
  { m with logs := lastLogs 10 m.logs }

/-- `Update`, key "enter" in `configState` while nothing is being edited
(lines 560-590). -/
def configSelect (E : UIEnv) (m : model) : model :=
  if m.currentMenu = 0 then
    { m with textInput := { E.setValue m.textInput m.downloadDir with
        placeholder := "Caminho da pasta (ex: C:\\MinhasCartas)", focused := true } }
  else if m.currentMenu = 1 then
    let m := updateDownloaderConfig { m with quality := nextQuality m.quality }
    let m := { m with logs := m.logs ++
      [E.successStyle ("✅ Qualidade alterada para: " ++ m.quality)] }
    { m with logs := lastLogs 10 m.logs }
  else if m.currentMenu = 2 then
    { m with textInput := { E.setValue m.textInput (toString m.maxWorkers) with
        placeholder := "Número de workers (1-50)", focused := true } }
  else if m.currentMenu = 3 then { m with state := .menuState }
  else m

/-- `Update`, key message in `configState` (lines 515-597). -/
def updateConfigKey (E : UIEnv) (m : model) (key : String) : model × List Cmd :=
  if key = "esc" then
    if m.textInput.focused then
      ({ m with textInput := { m.textInput with focused := false } }, [])
    else ({ m with state := .menuState }, [])
  else if key = "up" ∨ key = "k" then
    (if !m.textInput.focused ∧ m.currentMenu > 0 then
      { m with currentMenu := m.currentMenu - 1 } else m, [])
  else if key = "down" ∨ key = "j" then
    (if !m.textInput.focused ∧ m.currentMenu < 3 then
      { m with currentMenu := m.currentMenu + 1 } else m, [])
  else if key = "enter" then
    if m.textInput.focused then (configCommit E m, []) else (configSelect E m, [])
  else if m.textInput.focused then
    ({ m with textInput := E.textInputUpdate m.textInput key }, [.widget])
  else (m, [])

/-- `Update`, message `downloadCompleteMsg` (lines 614-630). -/
def updateDownloadComplete (T : CaseTable) (E : UIEnv) (m : model)
    (msg : DownloadCompleteMsg) : model :=
  let logs := m.logs ++ ["", E.successStyle "🎉 DOWNLOAD COMPLETO!", msg.message]
  let logs :=
    if msg.completed.length > 0 then
      logs ++ [E.successStyle ("✅ Sets baixados com sucesso (" ++
          toString msg.completed.length ++ "):")] ++
        msg.completed.map (fun code => E.successStyle ("  ✓ " ++ toUpper T code))
    else logs
  let logs :=
    if msg.failed.length > 0 then
      logs ++ [E.errorStyle ("❌ Sets com falha (" ++ toString msg.failed.length ++ "):")] ++
        msg.failed.map (fun code => E.errorStyle ("  ✗ " ++ toUpper T code))
    else logs
  { m with logs := lastLogs 20 logs }

/-- `model.Update` (lines 387-645): the model it returns and the commands. -/
def Update (T : CaseTable) (E : UIEnv) (m : model) : TeaMsg → model × List Cmd
  | .key key =>
    match m.state with
    | .menuState => updateMenuKey T E m key
    | .setSearchState => updateSetSearchKey T E m key
    | .setDownloadState => updateSetDownloadKey T E m key
    | .cardDownloadState => updateCardDownloadKey E m key
    | .setListState =>
      if key = "esc" ∨ key = "q" then ({ m with state := .menuState }, []) else (m, [])
    | .configState => updateConfigKey E m key
  | .setListMsg sets =>
    let m := { m with sets := sets }
    (if m.state = .setSearchState then updateSetList T m m.searchInput.value else m, [])
  | .progressUpdateMsg _ total _ =>
    if total > 0 then (m, [.widget, .tickProgress m]) else (m, [.tickProgress m])
  | .downloadCompleteMsg msg => (updateDownloadComplete T E m msg, [])
  | .errorMsg err =>
    let logs := m.logs ++ [E.errorStyle ("❌ Erro: " ++ err)]
    ({ m with logs := if logs.length > 15 then logs.drop 1 else logs }, [])
  | .other => (m, [.widget])

/-- The program's model after a sequence of messages, each handled by `Update`
in the environment that comes with it. -/
def runUpdates (T : CaseTable) : List (UIEnv × TeaMsg) → model → model
  | [], m => m
  | (E, msg) :: rest, m => runUpdates T rest (Update T E m msg).1

/-- The models the program can be in. -/
def ProgramReachable (T : CaseTable) (m : model) : Prop :=
  ∃ steps : List (UIEnv × TeaMsg), runUpdates T steps initialModel = m

/-- The copy of the model that a command holds, if it holds one. -/
def Cmd.held : Cmd → Option model
  | .tickProgress m => some m
  | .fetchSetsCmd m => some m
  | .downloadMultipleSetsCmd m _ => some m
  | .downloadCardCmd m _ => some m
  | _ => none

/-- An environment whose text inputs take the typed text "dom" and the text
passed to `SetValue`, where directories can be created and styles add nothing. -/
def demoUIEnv : UIEnv :=
  { textInputUpdate := fun ti _ => { ti with value := "dom" },
    setValue := fun ti s => { ti with value := s },
    mkdirAll := fun _ => none,
    errorStyle := fun s => s,
    successStyle := fun s => s }

/-- The messages of a session: "Download por Set" is chosen, the catalog
arrives, the user types and confirms. -/
def demoSession : List (UIEnv × TeaMsg) :=
  [(demoUIEnv, .key "enter"), (demoUIEnv, .setListMsg demoSets),
   (demoUIEnv, .key "d"), (demoUIEnv, .key "enter")]

/-- What one `Update` may do to the fields the scheduler and the progress read
depend on: the worker limit is kept or set to a value from 1 to 50, and each
counter is kept or set to zero. -/
def Frame (m m' : model) : Prop :=
  (m'.maxWorkers = m.maxWorkers ∨ (1 ≤ m'.maxWorkers ∧ m'.maxWorkers ≤ 50)) ∧
  (m'.totalTasks = m.totalTasks ∨ m'.totalTasks = 0) ∧
  (m'.completedTasks = m.completedTasks ∨ m'.completedTasks = 0)

/-- Every command that holds a model holds the given one. -/
def HeldIs (m' : model) (cmds : List Cmd) : Prop :=
  ∀ c ∈ cmds, ∀ mc, c.held = some mc → mc = m'

/-- The invariant of the program's model: the worker limit lies between 1 and
50 and both progress counters are zero. -/
def ProgramInv (m : model) : Prop :=
  (1 ≤ m.maxWorkers ∧ m.maxWorkers ≤ 50) ∧ m.totalTasks = 0 ∧ m.completedTasks = 0

/-- A schedule of two tasks with a channel of capacity ten that ends in
`demoFinalTwo`. -/
def demoScheduleTwo : List Action :=
  [.spawn, .spawn, .acquire 0, .acquire 1, .call 0 true, .call 1 false, .count 0,
   .count 1, .complete 0, .complete 1, .release 0, .release 1, .wgDone 0, .wgDone 1,
   .waitReturn]

/-- A model on the settings screen with the workers entry being edited and the
given text typed in. -/
def editingWorkers (value : String) : model :=
  { initialModel with
    state := .configState, currentMenu := 2,
    textInput := { initialModel.textInput with value := value, focused := true } }

/-! # Theorems -/

/-! ## Planner lemmas -/

theorem fallbackLoop_eq (card : Card) (tasks : List Task) (m : ImageMap) (name : String)
    (chain : List String) :
    fallbackLoop card tasks m name chain =
      match (chain.filterMap (fun q => m.lookup q)).head? with
      | some url => if url ≠ "" then tasks ++ [⟨url, name, card.Set⟩] else tasks
      | none => tasks := by
  induction chain with
  | nil => simp [fallbackLoop]
  | cons q rest ih =>
    cases h : m.lookup q with
    | none => simp [fallbackLoop, h, ih, List.filterMap_cons]
    | some url => simp [fallbackLoop, h, addDownloadTask, List.filterMap_cons]

theorem tryDownloadWithFallback_eq (d : Downloader) (card : Card) (tasks : List Task)
    (m : ImageMap) (name : String) :
    tryDownloadWithFallback d card tasks m name =
      match chainURL d.quality m with
      | some url => if url ≠ "" then tasks ++ [⟨url, name, card.Set⟩] else tasks
      | none => tasks := by
  unfold tryDownloadWithFallback chainURL
  exact fallbackLoop_eq card tasks m name _

theorem chainURL_nil (p : String) : chainURL p [] = none := by
  simp [chainURL]

theorem tryDownloadWithFallback_length (d : Downloader) (card : Card) (tasks : List Task)
    (m : ImageMap) (name : String) :
    (tryDownloadWithFallback d card tasks m name).length =
      tasks.length + (if yieldsTask d.quality m then 1 else 0) := by
  rw [tryDownloadWithFallback_eq]
  unfold yieldsTask
  cases chainURL d.quality m with
  | none => simp
  | some url => by_cases hu : url = "" <;> simp [hu]

theorem facesLoop_length (d : Downloader) (card : Card) (faces : List CardFace) :
    ∀ tasks : List Task, (facesLoop d card tasks faces).length =
      tasks.length + (faces.filter (fun f => yieldsTask d.quality f.ImageURIs)).length := by
  induction faces with
  | nil => intro tasks; simp [facesLoop]
  | cons f rest ih =>
    intro tasks
    simp only [facesLoop, ih]
    by_cases hlen : f.ImageURIs.length > 0
    · rw [if_pos hlen, tryDownloadWithFallback_length]
      by_cases hy : yieldsTask d.quality f.ImageURIs = true
      · simp [List.filter_cons, hy]; omega
      · simp [List.filter_cons, hy]
    · have hnil : f.ImageURIs = [] := by
        cases hm : f.ImageURIs with
        | nil => rfl
        | cons a b => simp [hm] at hlen
      have hy : yieldsTask d.quality f.ImageURIs = false := by
        simp [yieldsTask, hnil, chainURL_nil]
      rw [if_neg hlen]
      simp [List.filter_cons, hy]

theorem processCard_no_images (d : Downloader) (card : Card)
    (hm : card.ImageURIs = []) (hf : card.CardFaces = []) : processCard d card = [] := by
  unfold processCard
  simp only [hm, hf, facesLoop, tryDownloadWithFallback_eq, chainURL_nil, List.length_nil,
    gt_iff_lt, Nat.lt_irrefl, and_false, if_false, ite_self]

theorem beforeSep_of_absent (sep : List Char) :
    ∀ s : List Char, ¬ sep <:+: s → beforeSep sep s = s := by
  intro s
  induction s with
  | nil => intro _; rfl
  | cons c cs ih =>
    intro h
    have hp : sep.isPrefixOf (c :: cs) = false := by
      cases hb : sep.isPrefixOf (c :: cs) with
      | false => rfl
      | true => exact absurd (List.isPrefixOf_iff_prefix.mp hb).isInfix h
    have hcs : ¬ sep <:+: cs := fun hi => h (List.infix_cons hi)
    simp only [beforeSep, hp, Bool.false_eq_true, if_false, ih hcs]

theorem beforeSep_of_present (sep : List Char) :
    ∀ s : List Char, sep <:+: s → ∃ rest, s = beforeSep sep s ++ sep ++ rest := by
  intro s
  induction s with
  | nil =>
    intro h
    have : sep = [] := List.eq_nil_of_infix_nil h
    exact ⟨[], by simp [beforeSep, this]⟩
  | cons c cs ih =>
    intro h
    cases hb : sep.isPrefixOf (c :: cs) with
    | true =>
      obtain ⟨rest, hrest⟩ := List.isPrefixOf_iff_prefix.mp hb
      exact ⟨rest, by simp [beforeSep, hb, hrest]⟩
    | false =>
      have hcs : sep <:+: cs := by
        rcases List.infix_cons_iff.mp h with h1 | h1
        · have := List.isPrefixOf_iff_prefix.mpr h1
          rw [hb] at this
          exact absurd this (by simp)
        · exact h1
      obtain ⟨rest, hrest⟩ := ih hcs
      refine ⟨rest, ?_⟩
      simp only [beforeSep, hb, Bool.false_eq_true, if_false, List.cons_append]
      exact congrArg (List.cons c) hrest

theorem beforeSep_first (sep : List Char) :
    ∀ (s p r : List Char), s = p ++ sep ++ r → (beforeSep sep s).length ≤ p.length := by
  intro s
  induction s with
  | nil => intro p r _; simp [beforeSep]
  | cons c cs ih =>
    intro p r h
    cases hb : sep.isPrefixOf (c :: cs) with
    | true => simp [beforeSep, hb]
    | false =>
      cases p with
      | nil =>
        have : sep <+: c :: cs := ⟨r, by simpa using h.symm⟩
        have := List.isPrefixOf_iff_prefix.mpr this
        rw [hb] at this
        exact absurd this (by simp)
      | cons a p' =>
        simp only [List.cons_append, List.cons.injEq] at h
        have := ih p' r h.2
        simp only [beforeSep, hb, Bool.false_eq_true, if_false, List.length_cons]
        omega

/-! ## Claims about the planner -/

/-- C1 (counterexample): a `transform` card whose only face carries the mapping
`{"png": "u"}` has one face with a non-empty mapping, yet `processCard` returns
no task, because no quality of the chain is a key of that mapping. -/
theorem C1_counterexample :
    ¬ ((processCard ⟨10, "./downloads", "large"⟩
          ⟨"A // B", "transform", [], [⟨"A", [("png", "u")]⟩], "dom", ""⟩).length =
        (List.filter (fun f : CardFace => decide (f.ImageURIs.length > 0))
          [⟨"A", [("png", "u")]⟩]).length) := by
  decide

/-- C1 (amended): for a card whose layout is transform, modal_dfc,
reversible_card or double_faced_token, and any preferred quality, the number of
tasks returned by `processCard` equals the number of faces whose mapping has a
quality of the chain `[preferred, "normal", "small", "large"]` as a key with a
non-empty URL at the first such quality. -/
theorem C1_double_faced_task_count (d : Downloader) (card : Card)
    (hl : card.Layout = "transform" ∨ card.Layout = "modal_dfc" ∨
      card.Layout = "reversible_card" ∨ card.Layout = "double_faced_token") :
    (processCard d card).length =
      (card.CardFaces.filter (fun f => yieldsTask d.quality f.ImageURIs)).length := by
  have hadv : card.Layout ≠ "adventure" := by
    rcases hl with h | h | h | h <;> rw [h] <;> decide
  unfold processCard
  rw [if_neg hadv, if_pos hl, facesLoop_length]
  simp

/-- C1 (witness): the amended count at a transform card with one face that
yields a task and one that does not. -/
theorem C1_double_faced_task_count_witness :
    (processCard ⟨10, "./downloads", "large"⟩
        ⟨"A // B", "transform", [], [⟨"A", [("png", "u")]⟩, ⟨"B", [("normal", "v")]⟩],
          "dom", ""⟩).length =
      (List.filter (fun f : CardFace => yieldsTask "large" f.ImageURIs)
        [⟨"A", [("png", "u")]⟩, ⟨"B", [("normal", "v")]⟩]).length :=
  C1_double_faced_task_count ⟨10, "./downloads", "large"⟩
    ⟨"A // B", "transform", [], [⟨"A", [("png", "u")]⟩, ⟨"B", [("normal", "v")]⟩], "dom", ""⟩
    (by decide)

theorem processCard_default (d : Downloader) (card : Card)
    (hl : card.Layout ∉ specialLayouts)
    (hs : strContains card.Name "//" = false ∨ card.CardFaces = []) :
    processCard d card =
      match chainURL d.quality card.ImageURIs with
      | some url => if url ≠ "" then [⟨url, card.Name, card.Set⟩] else []
      | none => [] := by
  simp only [specialLayouts, List.mem_cons, List.mem_singleton, not_or, List.not_mem_nil,
    or_false] at hl
  obtain ⟨h1, h2, h3, h4, h5, h6, h7⟩ := hl
  have hfaces : ¬ (strContains card.Name "//" = true ∧ card.CardFaces.length > 0) := by
    rintro ⟨ha, hb⟩
    rcases hs with h | h
    · rw [h] at ha; exact Bool.noConfusion ha
    · rw [h] at hb; exact Nat.lt_irrefl _ hb
  unfold processCard
  rw [if_neg h1, if_neg (by simp [h2, h3, h4, h5]), if_neg (by simp [h6, h7]), if_neg hfaces]
  by_cases hlen : card.ImageURIs.length > 0
  · rw [if_pos hlen, tryDownloadWithFallback_eq]
    simp
  · have hnil : card.ImageURIs = [] := by
      cases hm : card.ImageURIs with
      | nil => rfl
      | cons a b => simp [hm] at hlen
    rw [if_neg hlen, hnil, chainURL_nil]

/-- C2 (counterexample): a `normal` card without faces whose own mapping is
`{"normal": ""}` has a chain quality as a key, yet `processCard` emits no task:
`addDownloadTask` drops an empty URL. -/
theorem C2_counterexample :
    (∃ q ∈ ["large", "normal", "small", "large"],
      (List.lookup q [("normal", "")] : Option String).isSome = true) ∧
    (processCard ⟨10, "./downloads", "large"⟩
      ⟨"Lightning Bolt", "normal", [("normal", "")], [], "lea", ""⟩).length ≠ 1 := by
  decide

/-- C2 (amended): for a card planned as single-face (layout outside the seven
special ones, and no "//" in the name or no faces) with own mapping `M` and
preferred quality `p`: at most one task is emitted; when the first quality of
the chain `[p, "normal", "small", "large"]` that is a key of `M` has a non-empty
URL, exactly one task is emitted, named with the full card name and with that
URL as source (the "normal" URL when `p` is absent and "normal" is present);
when no chain quality is a key of `M`, or the selected URL is empty, no task is
emitted. -/
theorem C2_single_face_fallback (d : Downloader) (card : Card)
    (hl : card.Layout ∉ specialLayouts)
    (hs : strContains card.Name "//" = false ∨ card.CardFaces = []) :
    (processCard d card).length ≤ 1 ∧
    (∀ url, chainURL d.quality card.ImageURIs = some url → url ≠ "" →
      processCard d card = [⟨url, card.Name, card.Set⟩]) ∧
    (∀ url, card.ImageURIs.lookup d.quality = none →
      card.ImageURIs.lookup "normal" = some url → url ≠ "" →
      processCard d card = [⟨url, card.Name, card.Set⟩]) ∧
    (chainURL d.quality card.ImageURIs = none ∨ chainURL d.quality card.ImageURIs = some "" →
      processCard d card = []) ∧
    (chainURL d.quality card.ImageURIs = none ↔
      ∀ q ∈ [d.quality, "normal", "small", "large"], card.ImageURIs.lookup q = none) := by
  have hp := processCard_default d card hl hs
  refine ⟨?_, ?_, ?_, ?_, ?_⟩
  · rw [hp]
    cases chainURL d.quality card.ImageURIs with
    | none => simp
    | some url => by_cases hu : url = "" <;> simp [hu]
  · intro url hc hu
    rw [hp, hc]; simp [hu]
  · intro url hq hn hu
    have hc : chainURL d.quality card.ImageURIs = some url := by
      simp [chainURL, List.filterMap_cons, hq, hn]
    rw [hp, hc]; simp [hu]
  · rintro (hc | hc)
    · rw [hp, hc]
    · rw [hp, hc]; simp
  · simp only [chainURL, List.head?_eq_none_iff, List.filterMap_eq_nil_iff]

/-- C2 (witness): a `normal` card with mapping `{"normal": "n", "large": "l"}`
and preferred quality "small". -/
theorem C2_single_face_fallback_witness :
    processCard ⟨10, "./downloads", "small"⟩
      ⟨"Lightning Bolt", "normal", [("normal", "n"), ("large", "l")], [], "lea", ""⟩ =
      [⟨"n", "Lightning Bolt", "lea"⟩] :=
  (C2_single_face_fallback ⟨10, "./downloads", "small"⟩
    ⟨"Lightning Bolt", "normal", [("normal", "n"), ("large", "l")], [], "lea", ""⟩
    (by decide) (Or.inl (by decide))).2.2.1 "n" (by decide) (by decide) (by decide)

/-- C3: for a card with layout split or flip whose own mapping is non-empty,
`processCard` plans from the card's own mapping under the full card name: the
result is the single task selected by the quality chain in the own mapping (or
none), every task carries the full card name, and replacing the faces by any
others changes nothing. In particular the own mapping `{"large": "u1"}` with
preferred quality "small" yields exactly one task, with source "u1". -/
theorem C3_split_flip_single_face (d : Downloader) (card : Card)
    (hl : card.Layout = "split" ∨ card.Layout = "flip")
    (hne : card.ImageURIs ≠ []) :
    (processCard d card =
      match chainURL d.quality card.ImageURIs with
      | some url => if url ≠ "" then [⟨url, card.Name, card.Set⟩] else []
      | none => []) ∧
    (∀ t ∈ processCard d card, t.cardName = card.Name ∧
      chainURL d.quality card.ImageURIs = some t.imageURL) ∧
    (∀ faces : List CardFace,
      processCard d { card with CardFaces := faces } = processCard d card) ∧
    (card.ImageURIs = [("large", "u1")] → d.quality = "small" →
      processCard d card = [⟨"u1", card.Name, card.Set⟩]) := by
  have hadv : card.Layout ≠ "adventure" := by
    rcases hl with h | h <;> rw [h] <;> decide
  have hdf : ¬ (card.Layout = "transform" ∨ card.Layout = "modal_dfc" ∨
      card.Layout = "reversible_card" ∨ card.Layout = "double_faced_token") := by
    rcases hl with h | h <;> rw [h] <;> decide
  have hlen : card.ImageURIs.length > 0 := List.length_pos.mpr hne
  have hown : ∀ faces : List CardFace, processCard d { card with CardFaces := faces } =
      match chainURL d.quality card.ImageURIs with
      | some url => if url ≠ "" then [⟨url, card.Name, card.Set⟩] else []
      | none => [] := by
    intro faces
    unfold processCard
    simp only []
    rw [if_neg hadv, if_neg hdf, if_pos hl, if_pos hlen, tryDownloadWithFallback_eq]
    simp
  have hmain := hown card.CardFaces
  refine ⟨hmain, ?_, ?_, ?_⟩
  · intro t ht
    rw [hmain] at ht
    cases hc : chainURL d.quality card.ImageURIs with
    | none => simp [hc] at ht
    | some url =>
      by_cases hu : url = ""
      · simp [hc, hu] at ht
      · simp [hc, hu] at ht
        simp [ht]
  · intro faces
    rw [hown faces, hmain]
  · intro hm hq
    have hc : chainURL d.quality card.ImageURIs = some "u1" := by
      rw [hm, hq]; decide
    rw [hmain, hc]
    simp

/-- C3 (witness): the split card of the scenario, with faces that carry
mappings of their own. -/
theorem C3_split_flip_single_face_witness :
    processCard ⟨10, "./downloads", "small"⟩
      ⟨"Fire // Ice", "split", [("large", "u1")],
        [⟨"Fire", [("small", "f")]⟩, ⟨"Ice", [("small", "i")]⟩], "apc", ""⟩ =
      [⟨"u1", "Fire // Ice", "apc"⟩] :=
  (C3_split_flip_single_face ⟨10, "./downloads", "small"⟩
    ⟨"Fire // Ice", "split", [("large", "u1")],
      [⟨"Fire", [("small", "f")]⟩, ⟨"Ice", [("small", "i")]⟩], "apc", ""⟩
    (Or.inl rfl) (by decide)).2.2.2 rfl rfl

/-! ## Sanitising lemmas -/

theorem mem_replaceScan (old new : List Char) (x : Char) :
    ∀ (s : List Char) (k : Nat), x ∈ replaceScan old new k s → x ∈ s ∨ x ∈ new := by
  intro s
  induction s with
  | nil => intro k h; simp [replaceScan] at h
  | cons c cs ih =>
    intro k h
    cases k with
    | succ k =>
      simp only [replaceScan] at h
      rcases ih k h with h1 | h1
      · exact Or.inl (List.mem_cons_of_mem _ h1)
      · exact Or.inr h1
    | zero =>
      simp only [replaceScan] at h
      split at h
      · rcases List.mem_append.mp h with h1 | h1
        · exact Or.inr h1
        · rcases ih _ h1 with h2 | h2
          · exact Or.inl (List.mem_cons_of_mem _ h2)
          · exact Or.inr h2
      · rcases List.mem_cons.mp h with h1 | h1
        · exact Or.inl (h1 ▸ List.mem_cons_self _ _)
        · rcases ih _ h1 with h2 | h2
          · exact Or.inl (List.mem_cons_of_mem _ h2)
          · exact Or.inr h2

/-- A replacement introduces no character that is neither in its input nor in
the replacement text. -/
theorem not_mem_replaceAll (s old new : String) (x : Char)
    (hnew : x ∉ new.data) (hs : x ∉ s.data) : x ∉ (replaceAll s old new).data := by
  unfold replaceAll
  split
  · simp only [List.mem_append, List.mem_flatMap, List.mem_cons, not_or, not_exists, not_and]
    refine ⟨hnew, ?_⟩
    intro c hc
    exact ⟨fun h => hs (h ▸ hc), hnew⟩
  · intro h
    rcases mem_replaceScan _ _ _ _ _ h with h1 | h1
    · exact hs h1
    · exact hnew h1

theorem not_mem_replaceScan_single (x : Char) :
    ∀ s : List Char, x ∉ replaceScan [x] [] 0 s := by
  intro s
  induction s with
  | nil => simp [replaceScan]
  | cons c cs ih =>
    simp only [replaceScan]
    by_cases hc : x = c
    · subst hc
      simpa [List.isPrefixOf] using ih
    · have hne : (x == c) = false := by simpa using hc
      simp [List.isPrefixOf, hne, hc, ih]

/-- Replacing the one-character string `x` by the empty string leaves no `x`. -/
theorem not_mem_replaceAll_single (s old new : String) (x : Char) (hold : old.data = [x])
    (hnew : new.data = []) : x ∉ (replaceAll s old new).data := by
  unfold replaceAll
  rw [hold, hnew]
  simpa using not_mem_replaceScan_single x s.data

/-- The sanitised name holds none of the nine characters of `invalidChars`. -/
theorem sanitize_not_illegal (fileName : String) :
    ∀ c ∈ illegalChars, c ∉ (sanitize fileName).data := by
  intro c hc
  simp only [illegalChars, List.mem_cons, List.mem_singleton, List.not_mem_nil,
    or_false] at hc
  simp only [sanitize, invalidChars, List.foldl]
  rcases hc with h | h | h | h | h | h | h | h | h
  all_goals
    subst h
    repeat (first
      | exact not_mem_replaceAll_single _ _ _ _ (by decide) (by decide)
      | refine not_mem_replaceAll _ _ _ _ (by decide) ?_)

/-! ## Path lemmas -/

theorem splitSlash_ne_nil (p : List Char) : splitSlash p ≠ [] := by
  cases p with
  | nil => simp [splitSlash]
  | cons c cs =>
    simp only [splitSlash]
    split
    · simp
    · split <;> simp

theorem splitSlash_append (a b : List Char) :
    splitSlash (a ++ '/' :: b) = splitSlash a ++ splitSlash b := by
  induction a with
  | nil => simp [splitSlash]
  | cons c cs ih =>
    by_cases hc : c = '/'
    · simp [splitSlash, hc, ih]
    · simp only [List.cons_append, splitSlash, hc, if_false, List.append_eq]
      rw [ih]
      cases h : splitSlash cs with
      | nil => exact absurd h (splitSlash_ne_nil cs)
      | cons seg segs => simp

theorem splitSlash_of_not_mem (s : List Char) (h : '/' ∉ s) : splitSlash s = [s] := by
  induction s with
  | nil => rfl
  | cons c cs ih =>
    have hc : c ≠ '/' := fun e => h (e ▸ List.mem_cons_self _ _)
    have hcs : '/' ∉ cs := fun e => h (List.mem_cons_of_mem _ e)
    simp [splitSlash, hc, ih hcs]

theorem pathElems_append (a b : List Char) :
    pathElems (a ++ '/' :: b) = pathElems a ++ pathElems b := by
  simp [pathElems, splitSlash_append]

theorem pathElems_plain (b : List Char) (hb : PlainName b) : pathElems b = [b] := by
  simp [pathElems, splitSlash_of_not_mem b hb.noSlash, hb.ne_nil, hb.ne_dot]

theorem foldl_pushElem_snoc (rooted : Bool) (cs : List (List Char)) (b : List Char)
    (hb : b ≠ ['.', '.']) :
    (cs ++ [b]).foldl (pushElem rooted) [] = cs.foldl (pushElem rooted) [] ++ [b] := by
  simp [List.foldl_append, pushElem, hb]

theorem joinSlash_snoc (st : List (List Char)) (b : List Char) :
    joinSlash (st ++ [b]) = if st = [] then b else joinSlash st ++ '/' :: b := by
  induction st with
  | nil => simp [joinSlash]
  | cons s rest ih =>
    cases rest with
    | nil => simp [joinSlash]
    | cons s2 rest2 =>
      have e : joinSlash (s :: s2 :: rest2 ++ [b]) =
          s ++ '/' :: joinSlash (s2 :: rest2 ++ [b]) := rfl
      rw [e, ih]
      simp [joinSlash]

/-- The cleaned path of elements that end in a plain name is a prefix, empty
or ending in a separator, followed by that name. -/
theorem renderPath_snoc (rooted : Bool) (st : List (List Char)) (b : List Char) :
    ∃ pre : List Char, renderPath rooted (st ++ [b]) = pre ++ b ∧
      (pre = [] ∨ ∃ x, pre = x ++ ['/']) := by
  unfold renderPath
  rw [joinSlash_snoc]
  by_cases hst : st = []
  · subst hst
    cases rooted with
    | true => exact ⟨['/'], by simp, Or.inr ⟨[], rfl⟩⟩
    | false => exact ⟨[], by simp, Or.inl rfl⟩
  · cases rooted with
    | true =>
      exact ⟨'/' :: joinSlash st ++ ['/'], by simp [hst], Or.inr ⟨'/' :: joinSlash st, rfl⟩⟩
    | false =>
      exact ⟨joinSlash st ++ ['/'], by simp [hst], Or.inr ⟨joinSlash st, rfl⟩⟩

theorem afterLastSlash_append (pre b : List Char) (hb : '/' ∉ b)
    (hpre : pre = [] ∨ ∃ x, pre = x ++ ['/']) : afterLastSlash (pre ++ b) = b := by
  unfold afterLastSlash
  have hall : ∀ c ∈ b.reverse, decide (c ≠ '/') = true := by
    intro c hc
    have : c ∈ b := List.mem_reverse.mp hc
    simpa using fun e : c = '/' => hb (e ▸ this)
  rcases hpre with rfl | ⟨x, rfl⟩
  · simp only [List.nil_append]
    rw [List.takeWhile_eq_self_iff.mpr hall, List.reverse_reverse]
  · simp only [List.reverse_append, List.reverse_cons, List.reverse_nil, List.nil_append,
      List.singleton_append]
    rw [List.takeWhile_append_of_pos hall]
    simp

/-- The file name written by line 241 is a plain name. -/
theorem fileName_plain (fileName : String) :
    PlainName (sanitize fileName ++ ".full.jpg").data := by
  have hdata : (sanitize fileName ++ ".full.jpg").data =
      (sanitize fileName).data ++ ['.', 'f', 'u', 'l', 'l', '.', 'j', 'p', 'g'] := by
    rw [String.data_append]
  have hlen : 9 ≤ (sanitize fileName ++ ".full.jpg").data.length := by
    rw [hdata]; simp
  refine ⟨?_, ?_, ?_, ?_⟩
  · rw [hdata]
    intro h
    rcases List.mem_append.mp h with h1 | h1
    · exact sanitize_not_illegal fileName '/' (by decide) h1
    · revert h1; decide
  · intro h; rw [h] at hlen; simp at hlen
  · intro h; rw [h] at hlen; simp at hlen
  · intro h; rw [h] at hlen; simp at hlen

/-- Cleaning a path that ends in a separator and a plain name. -/
theorem cleanChars_snoc (x b : List Char) (hb : PlainName b) (hx : x ≠ []) :
    cleanChars (x ++ '/' :: b) =
      renderPath (decide (x.head? = some '/'))
        ((pathElems x).foldl (pushElem (decide (x.head? = some '/'))) [] ++ [b]) := by
  have hne : x ++ '/' :: b ≠ [] := by simp
  have hhead : (x ++ '/' :: b).head? = x.head? := by
    cases x with
    | nil => exact absurd rfl hx
    | cons c cs => rfl
  unfold cleanChars
  rw [if_neg hne]
  simp only [hhead, pathElems_append, pathElems_plain b hb,
    foldl_pushElem_snoc _ _ b hb.ne_dotdot]

theorem cleanChars_plain (b : List Char) (hb : PlainName b) :
    cleanChars b = renderPath false ([] ++ [b]) := by
  have hhead : decide (b.head? = some '/') = false := by
    cases b with
    | nil => rfl
    | cons c cs =>
      have : c ≠ '/' := fun e => hb.noSlash (e ▸ List.mem_cons_self _ _)
      simpa using this
  unfold cleanChars
  rw [if_neg hb.ne_nil]
  simp only [hhead, pathElems_plain b hb]
  simp [pushElem, hb.ne_dotdot]

/-- Joining a directory and a plain name gives a cleaned directory followed by
the name. -/
theorem filepathJoin_plain (dir fname : String) (hb : PlainName fname.data) :
    ∃ (rooted : Bool) (st : List (List Char)),
      (filepathJoin [dir, fname]).data = renderPath rooted (st ++ [fname.data]) := by
  have hfn : fname ≠ "" := by
    intro h
    apply hb.ne_nil
    rw [h]
  unfold filepathJoin
  by_cases hs : dir = ""
  · refine ⟨false, [], ?_⟩
    simp only [hs, List.dropWhile_cons, decide_True, if_true, hfn, decide_False, if_false,
      joinWithSlash]
    exact cleanChars_plain _ hb
  · have hx : dir.data ≠ [] := by
      intro h
      apply hs
      exact String.ext h
    refine ⟨decide (dir.data.head? = some '/'),
      (pathElems dir.data).foldl (pushElem (decide (dir.data.head? = some '/'))) [], ?_⟩
    simp only [List.dropWhile_cons, hs, decide_False, if_false, joinWithSlash]
    exact cleanChars_snoc _ _ hb hx

/-- The last element of a path that ends in a plain name is that name. -/
theorem filepathBase_render (rooted : Bool) (st : List (List Char)) (b : String)
    (hb : PlainName b.data) (p : String)
    (hp : p.data = renderPath rooted (st ++ [b.data])) : filepathBase p = b := by
  obtain ⟨pre, hpre, hshape⟩ := renderPath_snoc rooted st b.data
  rw [hpre] at hp
  obtain ⟨c, cs, hrev⟩ : ∃ c cs, b.data.reverse = c :: cs := by
    cases h : b.data.reverse with
    | nil => exact absurd (List.reverse_eq_nil_iff.mp h) hb.ne_nil
    | cons c cs => exact ⟨c, cs, rfl⟩
  have hc : c ≠ '/' := by
    intro e
    apply hb.noSlash
    have : c ∈ b.data.reverse := by rw [hrev]; exact List.mem_cons_self _ _
    exact e ▸ List.mem_reverse.mp this
  have hstrip : (p.data.reverse.dropWhile (fun c => decide (c = '/'))).reverse = p.data := by
    rw [hp, List.reverse_append, hrev]
    simp [List.dropWhile_cons, hc]
    have := congrArg List.reverse hrev
    simpa using this.symm
  have hne : p.data ≠ [] := by
    rw [hp]
    intro h
    exact hb.ne_nil (List.append_eq_nil.mp h).2
  unfold filepathBase
  rw [if_neg hne]
  simp only [hstrip]
  rw [hp, afterLastSlash_append pre b.data hb.noSlash hshape, if_neg hb.ne_nil]

theorem splitSlash_no_slash (p : List Char) : ∀ seg ∈ splitSlash p, '/' ∉ seg := by
  induction p with
  | nil => simp [splitSlash]
  | cons c cs ih =>
    intro seg hseg
    by_cases hc : c = '/'
    · simp only [splitSlash, hc, if_true, List.mem_cons] at hseg
      rcases hseg with rfl | h
      · simp
      · exact ih seg h
    · simp only [splitSlash, hc, if_false] at hseg
      cases h : splitSlash cs with
      | nil => exact absurd h (splitSlash_ne_nil cs)
      | cons s0 segs =>
        rw [h] at hseg ih
        simp only [List.mem_cons] at hseg
        rcases hseg with rfl | h1
        · intro hm
          rcases List.mem_cons.mp hm with e | e
          · exact hc e.symm
          · exact ih s0 (List.mem_cons_self _ _) e
        · exact ih seg (List.mem_cons_of_mem _ h1)

theorem pathElems_valid (p : List Char) : ∀ seg ∈ pathElems p, ValidElem seg := by
  intro seg hseg
  simp only [pathElems, List.mem_filter, decide_eq_true_eq] at hseg
  exact ⟨hseg.2.1, splitSlash_no_slash p seg hseg.1, hseg.2.2⟩

theorem splitSlash_joinSlash (out : List (List Char)) (hne : out ≠ [])
    (h : ∀ seg ∈ out, '/' ∉ seg) : splitSlash (joinSlash out) = out := by
  induction out with
  | nil => exact absurd rfl hne
  | cons s rest ih =>
    cases rest with
    | nil => simpa [joinSlash] using splitSlash_of_not_mem s (h s (List.mem_cons_self _ _))
    | cons s2 rest2 =>
      have e : joinSlash (s :: s2 :: rest2) = s ++ '/' :: joinSlash (s2 :: rest2) := rfl
      rw [e, splitSlash_append, splitSlash_of_not_mem s (h s (List.mem_cons_self _ _)),
        ih (by simp) (fun seg hs => h seg (List.mem_cons_of_mem _ hs))]
      rfl

theorem filter_valid (out : List (List Char)) (h : ∀ seg ∈ out, ValidElem seg) :
    out.filter (fun seg => decide (seg ≠ [] ∧ seg ≠ ['.'])) = out := by
  apply List.filter_eq_self.mpr
  intro seg hs
  have := h seg hs
  simp [this.1, this.2.2]

theorem pathElems_joinSlash (out : List (List Char)) (h : ∀ seg ∈ out, ValidElem seg) :
    pathElems (joinSlash out) = out := by
  by_cases hne : out = []
  · subst hne; simp [pathElems, joinSlash, splitSlash]
  · unfold pathElems
    rw [splitSlash_joinSlash out hne (fun seg hs => (h seg hs).2.1)]
    exact filter_valid out h

theorem pathElems_renderPath (rooted : Bool) (out : List (List Char))
    (h : ∀ seg ∈ out, ValidElem seg) : pathElems (renderPath rooted out) = out := by
  unfold renderPath
  cases rooted with
  | true =>
    have e : pathElems ('/' :: joinSlash out) = pathElems [] ++ pathElems (joinSlash out) :=
      pathElems_append [] (joinSlash out)
    simp only [if_true]
    rw [e, pathElems_joinSlash out h]
    simp [pathElems, splitSlash]
  | false =>
    by_cases hne : out = []
    · subst hne; simp [pathElems, splitSlash]
    · simp only [Bool.false_eq_true, if_false, hne]
      exact pathElems_joinSlash out h

theorem joinSlash_head (s : List Char) (rest : List (List Char)) (hs : s ≠ []) :
    (joinSlash (s :: rest)).head? = s.head? := by
  cases rest with
  | nil => rfl
  | cons s2 rest2 =>
    have e : joinSlash (s :: s2 :: rest2) = s ++ '/' :: joinSlash (s2 :: rest2) := rfl
    rw [e]
    cases s with
    | nil => exact absurd rfl hs
    | cons c cs => rfl

theorem renderPath_rooted (rooted : Bool) (out : List (List Char))
    (h : ∀ seg ∈ out, ValidElem seg) :
    decide ((renderPath rooted out).head? = some '/') = rooted := by
  unfold renderPath
  cases rooted with
  | true => simp
  | false =>
    cases out with
    | nil => simp
    | cons s rest =>
      have hv := h s (List.mem_cons_self _ _)
      have hne : s :: rest ≠ [] := by simp
      simp only [Bool.false_eq_true, if_false, hne, joinSlash_head s rest hv.1]
      cases s with
      | nil => exact absurd rfl hv.1
      | cons c cs =>
        have : c ≠ '/' := fun e => hv.2.1 (e ▸ List.mem_cons_self _ _)
        simpa using this

theorem renderPath_ne_nil (rooted : Bool) (out : List (List Char))
    (h : ∀ seg ∈ out, ValidElem seg) : renderPath rooted out ≠ [] := by
  unfold renderPath
  cases rooted with
  | true => simp
  | false =>
    cases out with
    | nil => simp
    | cons s rest =>
      have hv := h s (List.mem_cons_self _ _)
      have hne : s :: rest ≠ [] := by simp
      simp only [Bool.false_eq_true, if_false, hne]
      intro e
      have := joinSlash_head s rest hv.1
      rw [e] at this
      cases s with
      | nil => exact absurd rfl hv.1
      | cons c cs => simp at this

theorem pushElem_of_normal (rooted : Bool) (acc l : List (List Char)) (seg : List Char)
    (h : NormalElems rooted (acc ++ seg :: l)) : pushElem rooted acc seg = acc ++ [seg] := by
  unfold pushElem
  by_cases hseg : seg = ['.', '.']
  · rw [if_pos hseg]
    cases hl : acc.getLast? with
    | none =>
      have hacc : acc = [] := List.getLast?_eq_none_iff.mp hl
      subst hacc
      cases rooted with
      | false => simp
      | true =>
        have := h.2.2 rfl
        simp [hseg, dotdot] at this
    | some top =>
      obtain ⟨acc', rfl⟩ := List.getLast?_eq_some_iff.mp hl
      have hc : List.Chain' (fun a b => b = dotdot → a = dotdot) (top :: seg :: l) := by
        have := h.2.1
        rw [List.append_assoc] at this
        exact this.right_of_append
      have htop : top = dotdot := (List.chain'_cons.mp hc).1 hseg
      simp [htop, dotdot]
  · rw [if_neg hseg]

theorem foldl_pushElem_of_normal (rooted : Bool) : ∀ (l acc : List (List Char)),
    NormalElems rooted (acc ++ l) → l.foldl (pushElem rooted) acc = acc ++ l := by
  intro l
  induction l with
  | nil => intro acc _; simp
  | cons seg rest ih =>
    intro acc h
    simp only [List.foldl_cons]
    rw [pushElem_of_normal rooted acc rest seg h, ih (acc ++ [seg]) (by simpa using h)]
    simp

theorem normal_pushElem (rooted : Bool) (out : List (List Char)) (seg : List Char)
    (h : NormalElems rooted out) (hv : ValidElem seg) :
    NormalElems rooted (pushElem rooted out seg) := by
  obtain ⟨hall, hchain, hhead⟩ := h
  have snoc : (seg = dotdot → (out = [] ∧ rooted = false) ∨ out.getLast? = some dotdot) →
      NormalElems rooted (out ++ [seg]) := by
    intro hd
    refine ⟨?_, ?_, ?_⟩
    · intro s hs
      rcases List.mem_append.mp hs with h1 | h1
      · exact hall s h1
      · simp only [List.mem_singleton] at h1; exact h1 ▸ hv
    · apply List.Chain'.append hchain (List.chain'_singleton seg)
      intro x hx y hy hyd
      simp only [List.head?_cons, Option.mem_def, Option.some.injEq] at hy
      subst hy
      rcases hd hyd with ⟨h1, -⟩ | h1
      · subst h1; simp at hx
      · rw [h1] at hx
        simp only [Option.mem_def, Option.some.injEq] at hx
        exact hx.symm
    · intro hr
      cases out with
      | nil =>
        simp only [List.nil_append, List.head?_cons, ne_eq, Option.some.injEq]
        intro hsd
        rcases hd hsd with ⟨-, h2⟩ | h2
        · rw [hr] at h2; exact absurd h2 (by simp)
        · simp at h2
      | cons a rest => simpa using hhead hr
  unfold pushElem
  by_cases hseg : seg = ['.', '.']
  · rw [if_pos hseg]
    cases hl : out.getLast? with
    | none =>
      have hout : out = [] := List.getLast?_eq_none_iff.mp hl
      cases rooted with
      | true => simpa using ⟨hall, hchain, hhead⟩
      | false =>
        simp only [Bool.false_eq_true, if_false]
        exact snoc (fun _ => Or.inl ⟨hout, rfl⟩)
    | some top =>
      by_cases htop : top = ['.', '.']
      · simp only [htop, if_true]
        exact snoc (fun _ => Or.inr (by rw [hl, htop]; rfl))
      · simp only [htop, if_false]
        refine ⟨?_, ?_, ?_⟩
        · intro s hs
          exact hall s (List.mem_of_mem_dropLast hs)
        · exact hchain.prefix (List.dropLast_prefix out)
        · intro hr
          have := hhead hr
          cases out with
          | nil => simp
          | cons a rest =>
            cases rest with
            | nil => simp
            | cons b rest2 => simpa using this
  · rw [if_neg hseg]
    exact snoc (fun hd => absurd hd hseg)

theorem normal_foldl (rooted : Bool) : ∀ (cs acc : List (List Char)),
    NormalElems rooted acc → (∀ seg ∈ cs, ValidElem seg) →
    NormalElems rooted (cs.foldl (pushElem rooted) acc) := by
  intro cs
  induction cs with
  | nil => intro acc h _; simpa using h
  | cons seg rest ih =>
    intro acc h hv
    simp only [List.foldl_cons]
    exact ih _ (normal_pushElem rooted acc seg h (hv seg (List.mem_cons_self _ _)))
      (fun s hs => hv s (List.mem_cons_of_mem _ hs))

theorem normal_nil (rooted : Bool) : NormalElems rooted [] :=
  ⟨by simp, List.chain'_nil, by simp⟩

/-- The result of `Clean` on a non-empty path is the rendering of a normal
element list. -/
theorem cleanChars_normal (p : List Char) (hp : p ≠ []) :
    ∃ (rooted : Bool) (out : List (List Char)),
      NormalElems rooted out ∧ cleanChars p = renderPath rooted out := by
  refine ⟨decide (p.head? = some '/'),
    (pathElems p).foldl (pushElem (decide (p.head? = some '/'))) [], ?_, ?_⟩
  · exact normal_foldl _ _ _ (normal_nil _) (pathElems_valid p)
  · unfold cleanChars
    rw [if_neg hp]

/-- `Clean` leaves the rendering of a normal element list alone. -/
theorem cleanChars_renderPath (rooted : Bool) (out : List (List Char))
    (h : NormalElems rooted out) : cleanChars (renderPath rooted out) = renderPath rooted out := by
  unfold cleanChars
  rw [if_neg (renderPath_ne_nil rooted out h.1)]
  simp only [renderPath_rooted rooted out h.1, pathElems_renderPath rooted out h.1]
  rw [foldl_pushElem_of_normal rooted out [] (by simpa using h)]
  simp

theorem renderPath_snoc_eq (rooted : Bool) (st : List (List Char)) (b : List Char) :
    renderPath rooted (st ++ [b]) =
      (if st = [] then (if rooted then ['/'] else []) else renderPath rooted st ++ ['/']) ++ b := by
  unfold renderPath
  rw [joinSlash_snoc]
  by_cases hst : st = []
  · subst hst
    cases rooted <;> simp [joinSlash]
  · cases rooted <;> simp [hst]

theorem uptoLastSlash_append (pre b : List Char) (hb : '/' ∉ b)
    (hpre : pre = [] ∨ ∃ x, pre = x ++ ['/']) : uptoLastSlash (pre ++ b) = pre := by
  unfold uptoLastSlash
  have hall : ∀ c ∈ b.reverse, decide (c ≠ '/') = true := by
    intro c hc
    have : c ∈ b := List.mem_reverse.mp hc
    simpa using fun e : c = '/' => hb (e ▸ this)
  rcases hpre with rfl | ⟨x, rfl⟩
  · simp only [List.nil_append]
    rw [List.dropWhile_eq_nil_iff.mpr hall]
    rfl
  · simp only [List.reverse_append, List.reverse_cons, List.reverse_nil, List.nil_append,
      List.singleton_append]
    rw [List.dropWhile_append_of_pos hall]
    simp [List.dropWhile_cons]

theorem cleanChars_trailing_slash (x : List Char) (hx : x ≠ []) :
    cleanChars (x ++ ['/']) = cleanChars x := by
  have hhead : (x ++ ['/']).head? = x.head? := by
    cases x with
    | nil => exact absurd rfl hx
    | cons c cs => rfl
  have hel : pathElems (x ++ ['/']) = pathElems x := by
    rw [pathElems_append x []]
    simp [pathElems, splitSlash]
  unfold cleanChars
  rw [if_neg hx, if_neg (by simp)]
  simp only [hhead, hel]

/-- `Dir` of a cleaned directory followed by a plain name is that directory. -/
theorem filepathDir_render (rooted : Bool) (out : List (List Char)) (b : List Char)
    (h : NormalElems rooted out) (hb : PlainName b) (p : String)
    (hp : p.data = renderPath rooted (out ++ [b])) :
    (filepathDir p).data = renderPath rooted out := by
  unfold filepathDir
  simp only
  rw [hp, renderPath_snoc_eq]
  by_cases hout : out = []
  · subst hout
    cases rooted with
    | true =>
      rw [uptoLastSlash_append _ b hb.noSlash (Or.inr ⟨[], by simp⟩)]
      decide
    | false =>
      rw [uptoLastSlash_append _ b hb.noSlash (Or.inl (by simp))]
      decide
  · rw [uptoLastSlash_append _ b hb.noSlash (Or.inr ⟨renderPath rooted out, by simp [hout]⟩)]
    simp only [hout, if_false]
    rw [cleanChars_trailing_slash _ (renderPath_ne_nil rooted out h.1),
      cleanChars_renderPath rooted out h]

/-- Joining a cleaned directory and a plain name, then taking `Dir`, gives the
directory back. -/
theorem filepathDir_join (x : List Char) (hx : x ≠ []) (fname : String)
    (hb : PlainName fname.data) :
    filepathDir (filepathJoin [⟨cleanChars x⟩, fname]) = ⟨cleanChars x⟩ := by
  obtain ⟨rooted, out, hn, hc⟩ := cleanChars_normal x hx
  have hne : cleanChars x ≠ [] := by rw [hc]; exact renderPath_ne_nil rooted out hn.1
  have hs : (⟨cleanChars x⟩ : String) ≠ "" := by
    intro e
    exact hne (congrArg String.data e)
  have hfn : fname ≠ "" := by
    intro e
    apply hb.ne_nil
    rw [e]
  have hjoin : (filepathJoin [⟨cleanChars x⟩, fname]).data =
      renderPath rooted (out ++ [fname.data]) := by
    unfold filepathJoin
    simp only [List.dropWhile_cons, hs, decide_False, Bool.false_eq_true, if_false,
      joinWithSlash]
    rw [cleanChars_snoc _ _ hb hne, hc, renderPath_rooted rooted out hn.1,
      pathElems_renderPath rooted out hn.1,
      foldl_pushElem_of_normal rooted out [] (by simpa using hn)]
    simp
  apply String.ext
  rw [filepathDir_render rooted out fname.data hn hb _ hjoin, hc]

/-- The set directory is a cleaned non-empty path unless both the download
root and the set code are empty. -/
theorem setDir_clean (T : CaseTable) (d : Downloader) (setCode : String)
    (h : d.downloadDir ≠ "" ∨ setCode ≠ "") :
    ∃ x : List Char, x ≠ [] ∧
      filepathJoin [d.downloadDir, toUpper T setCode] = ⟨cleanChars x⟩ := by
  unfold filepathJoin
  by_cases hd : d.downloadDir = ""
  · have hc : setCode ≠ "" := by
      rcases h with h | h
      · exact absurd hd h
      · exact h
    have hdata : (toUpper T setCode).data ≠ [] := by
      unfold toUpper
      simp only [ne_eq, List.map_eq_nil_iff]
      intro e
      exact hc (String.ext e)
    have hu : toUpper T setCode ≠ "" := fun e => hdata (congrArg String.data e)
    refine ⟨(toUpper T setCode).data, hdata, ?_⟩
    simp only [List.dropWhile_cons, hd, decide_True, if_true, hu, decide_False,
      Bool.false_eq_true, if_false, joinWithSlash]
  · refine ⟨d.downloadDir.data ++ '/' :: (toUpper T setCode).data, by simp, ?_⟩
    simp only [List.dropWhile_cons, hd, decide_False, Bool.false_eq_true, if_false,
      joinWithSlash]

/-! ## Lemmas on the image store -/

theorem countP_set_add {α : Type} (p : α → Bool) (a b : α) :
    ∀ (l : List α) (i : Nat), l[i]? = some a →
      (l.set i b).countP p + (if p a then 1 else 0) =
        l.countP p + (if p b then 1 else 0) := by
  intro l
  induction l with
  | nil => intro i h; simp at h
  | cons x xs ih =>
    intro i h
    cases i with
    | zero =>
      simp only [List.getElem?_cons_zero, Option.some.injEq] at h
      subst h
      simp only [List.set_cons_zero, List.countP_cons]
      omega
    | succ j =>
      simp only [List.getElem?_cons_succ] at h
      have := ih j h
      simp only [List.set_cons_succ, List.countP_cons]
      omega

theorem inv_init (n C : Nat) : Inv n C Sched.init := by
  constructor <;> simp [Sched.init]

/-- What a goroutine step does to the list of program counters. -/
theorem step_cases (n C : Nat) (a : Action) (s s' : Sched) (h : step n C a s = some s') :
    (a = .spawn ∧ s.returned = false ∧ s.gs.length < n ∧
      s' = { s with gs := s.gs ++ [GPC.spawned], wg := s.wg + 1 }) ∨
    (a = .waitReturn ∧ s.returned = false ∧ s.gs.length = n ∧ s.wg = 0 ∧
      s' = { s with returned := true }) ∨
    (∃ i g g', s.gs[i]? = some g ∧ s'.gs = s.gs.set i g' ∧ s'.returned = s.returned ∧
      ((a = .acquire i ∧ g = .spawned ∧ g' = .acquired ∧ s.semaphore < C ∧
          s'.semaphore = s.semaphore + 1 ∧ s'.wg = s.wg ∧
          s'.successCount = s.successCount ∧ s'.completedTasks = s.completedTasks) ∨
       (∃ ok, a = .call i ok ∧ g = .acquired ∧ g' = .called ok ∧
          s'.semaphore = s.semaphore ∧ s'.wg = s.wg ∧
          s'.successCount = s.successCount ∧ s'.completedTasks = s.completedTasks) ∨
       (∃ ok, a = .count i ∧ g = .called ok ∧ g' = .counted ok ∧
          s'.semaphore = s.semaphore ∧ s'.wg = s.wg ∧
          s'.successCount = s.successCount + (if ok then 1 else 0) ∧
          s'.completedTasks = s.completedTasks) ∨
       (∃ ok, a = .complete i ∧ g = .counted ok ∧ g' = .completed ok ∧
          s'.semaphore = s.semaphore ∧ s'.wg = s.wg ∧
          s'.successCount = s.successCount ∧ s'.completedTasks = s.completedTasks + 1) ∨
       (∃ ok, a = .release i ∧ g = .completed ok ∧ g' = .released ok ∧
          s'.semaphore = s.semaphore - 1 ∧ s'.wg = s.wg ∧
          s'.successCount = s.successCount ∧ s'.completedTasks = s.completedTasks) ∨
       (∃ ok, a = .wgDone i ∧ g = .released ok ∧ g' = .done ok ∧
          s'.semaphore = s.semaphore ∧ s'.wg = s.wg - 1 ∧
          s'.successCount = s.successCount ∧ s'.completedTasks = s.completedTasks))) := by
  cases a with
  | spawn =>
    simp only [step] at h
    split at h
    · rename_i hc
      simp only [Option.some.injEq] at h
      exact Or.inl ⟨rfl, hc.1, hc.2, h.symm⟩
    · exact absurd h (by simp)
  | waitReturn =>
    simp only [step] at h
    split at h
    · rename_i hc
      simp only [Option.some.injEq] at h
      exact Or.inr (Or.inl ⟨rfl, hc.1, hc.2.1, hc.2.2, h.symm⟩)
    · exact absurd h (by simp)
  | acquire i =>
    simp only [step] at h
    split at h
    · rename_i hg
      split at h
      · rename_i hc
        simp only [Option.some.injEq] at h
        subst h
        exact Or.inr (Or.inr ⟨i, _, _, hg, rfl, rfl, Or.inl ⟨rfl, rfl, rfl, hc, rfl, rfl, rfl, rfl⟩⟩)
      · exact absurd h (by simp)
    · exact absurd h (by simp)
  | call i ok =>
    simp only [step] at h
    split at h
    · rename_i hg
      simp only [Option.some.injEq] at h
      subst h
      exact Or.inr (Or.inr ⟨i, _, _, hg, rfl, rfl,
        Or.inr (Or.inl ⟨ok, rfl, rfl, rfl, rfl, rfl, rfl, rfl⟩)⟩)
    · exact absurd h (by simp)
  | count i =>
    simp only [step] at h
    split at h
    · rename_i ok hg
      simp only [Option.some.injEq] at h
      subst h
      exact Or.inr (Or.inr ⟨i, _, _, hg, rfl, rfl,
        Or.inr (Or.inr (Or.inl ⟨ok, rfl, rfl, rfl, rfl, rfl, rfl, rfl⟩))⟩)
    · exact absurd h (by simp)
  | complete i =>
    simp only [step] at h
    split at h
    · rename_i ok hg
      simp only [Option.some.injEq] at h
      subst h
      exact Or.inr (Or.inr ⟨i, _, _, hg, rfl, rfl,
        Or.inr (Or.inr (Or.inr (Or.inl ⟨ok, rfl, rfl, rfl, rfl, rfl, rfl, rfl⟩)))⟩)
    · exact absurd h (by simp)
  | release i =>
    simp only [step] at h
    split at h
    · rename_i ok hg
      simp only [Option.some.injEq] at h
      subst h
      exact Or.inr (Or.inr ⟨i, _, _, hg, rfl, rfl,
        Or.inr (Or.inr (Or.inr (Or.inr (Or.inl ⟨ok, rfl, rfl, rfl, rfl, rfl, rfl, rfl⟩))))⟩)
    · exact absurd h (by simp)
  | wgDone i =>
    simp only [step] at h
    split at h
    · rename_i ok hg
      simp only [Option.some.injEq] at h
      subst h
      exact Or.inr (Or.inr ⟨i, _, _, hg, rfl, rfl,
        Or.inr (Or.inr (Or.inr (Or.inr (Or.inr ⟨ok, rfl, rfl, rfl, rfl, rfl, rfl, rfl⟩))))⟩)
    · exact absurd h (by simp)


theorem inv_step (n C : Nat) (a : Action) (s s' : Sched) (hinv : Inv n C s)
    (h : step n C a s = some s') : Inv n C s' := by
  obtain ⟨hsem, hwg, hsucc, hfin, hlen, hcap, hret⟩ := hinv
  rcases step_cases n C a s s' h with
    ⟨-, hr, hl, rfl⟩ | ⟨-, hr, hl, hw, rfl⟩ | ⟨i, g, g', hg, hgs, hr, hcase⟩
  · refine ⟨?_, ?_, ?_, ?_, ?_, hcap, ?_⟩
    · simpa [GPC.holds] using hsem
    · simpa [GPC.live] using hwg
    · simpa [GPC.succeeded] using hsucc
    · simpa [GPC.finished] using hfin
    · simpa using hl
    · intro hr'; simp [hr] at hr'
  · exact ⟨hsem, hwg, hsucc, hfin, hlen, hcap, fun _ => ⟨hl, hw⟩⟩
  · have c1 := countP_set_add GPC.holds g g' s.gs i hg
    have c2 := countP_set_add GPC.live g g' s.gs i hg
    have c3 := countP_set_add GPC.succeeded g g' s.gs i hg
    have c4 := countP_set_add GPC.finished g g' s.gs i hg
    have hlen' : s'.gs.length ≤ n := by rw [hgs]; simpa using hlen
    have hret' : ∀ w, s'.wg ≤ w → w = s.wg ∨ s.returned = false →
        s'.returned = true → s'.gs.length = n ∧ s'.wg = 0 := by
      intro w hw hor hr'
      rw [hr] at hr'
      have := hret hr'
      rcases hor with rfl | hf
      · exact ⟨by rw [hgs]; simpa using this.1, by omega⟩
      · rw [hf] at hr'; exact absurd hr' (by simp)
    rcases hcase with ⟨-, rfl, rfl, hc, e1, e2, e3, e4⟩ | ⟨ok, -, rfl, rfl, e1, e2, e3, e4⟩ |
      ⟨ok, -, rfl, rfl, e1, e2, e3, e4⟩ | ⟨ok, -, rfl, rfl, e1, e2, e3, e4⟩ |
      ⟨ok, -, rfl, rfl, e1, e2, e3, e4⟩ | ⟨ok, -, rfl, rfl, e1, e2, e3, e4⟩
    all_goals
      simp only [GPC.holds, GPC.live, GPC.succeeded, GPC.finished, if_true, if_false,
        Bool.false_eq_true] at c1 c2 c3 c4
      refine ⟨?_, ?_, ?_, ?_, hlen', ?_, hret' s.wg (by omega) (Or.inl rfl)⟩
      all_goals (try rw [hgs])
      all_goals (try (cases ok <;> simp at c3 ⊢ <;> omega))
      all_goals (try omega)


theorem inv_exec (n C : Nat) : ∀ (acts : List Action) (s s' : Sched), Inv n C s →
    exec n C acts s = some s' → Inv n C s' := by
  intro acts
  induction acts with
  | nil => intro s s' hinv h; simp only [exec, Option.some.injEq] at h; exact h ▸ hinv
  | cons a rest ih =>
    intro s s' hinv h
    simp only [exec] at h
    cases hs : step n C a s with
    | none => simp [hs] at h
    | some s1 =>
      rw [hs] at h
      exact ih s1 s' (inv_step n C a s s1 hinv hs) h

theorem inv_reachable (n C : Nat) (s : Sched) (h : Reachable n C s) : Inv n C s := by
  obtain ⟨acts, hacts⟩ := h
  exact inv_exec n C acts _ _ (inv_init n C) hacts

theorem reachable_step (n C : Nat) (a : Action) (s s' : Sched) (h : Reachable n C s)
    (hs : step n C a s = some s') : Reachable n C s' := by
  obtain ⟨acts, hacts⟩ := h
  refine ⟨acts ++ [a], ?_⟩
  have key : ∀ (l : List Action) (s0 : Sched), exec n C l s0 = some s →
      exec n C (l ++ [a]) s0 = some s' := by
    intro l
    induction l with
    | nil =>
      intro s0 h0
      simp only [exec, Option.some.injEq] at h0
      subst h0
      simp [exec, hs]
    | cons b rest ih =>
      intro s0 h0
      simp only [exec, List.cons_append] at h0 ⊢
      cases hb : step n C b s0 with
      | none => simp [hb] at h0
      | some s1 =>
        rw [hb] at h0
        simp only [Option.some_bind] at h0 ⊢
        exact ih s1 h0
  exact key acts _ hacts

/-- The completed counter never decreases and grows by at most one per step. -/
theorem completed_step (n C : Nat) (a : Action) (s s' : Sched)
    (h : step n C a s = some s') :
    s.completedTasks ≤ s'.completedTasks ∧ s'.completedTasks ≤ s.completedTasks + 1 := by
  rcases step_cases n C a s s' h with
    ⟨-, hr, hl, rfl⟩ | ⟨-, hr, hl, hw, rfl⟩ | ⟨i, g, g', hg, hgs, hr, hcase⟩
  · simp
  · simp
  · rcases hcase with ⟨-, -, -, -, -, -, -, e⟩ | ⟨ok, -, -, -, -, -, -, e⟩ |
      ⟨ok, -, -, -, -, -, -, e⟩ | ⟨ok, -, -, -, -, -, -, e⟩ |
      ⟨ok, -, -, -, -, -, -, e⟩ | ⟨ok, -, -, -, -, -, -, e⟩ <;> omega

theorem countP_le_length_of {α : Type} (p : α → Bool) (l : List α) :
    l.countP p ≤ l.length := List.countP_le_length p

/-- At the return of `wg.Wait()` every goroutine is finished. -/
theorem all_done_of_returned (n C : Nat) (s : Sched) (hinv : Inv n C s)
    (hr : s.returned = true) : ∀ g ∈ s.gs, ∃ ok, g = GPC.done ok := by
  have hw : s.gs.countP GPC.live = 0 := by rw [← hinv.wg]; exact (hinv.ret hr).2
  intro g hg
  have := (List.countP_eq_zero.mp hw) g hg
  cases g <;> simp [GPC.live] at this ⊢

theorem countP_eq_length_of_all {α : Type} (p : α → Bool) (l : List α)
    (h : ∀ a ∈ l, p a = true) : l.countP p = l.length :=
  List.countP_eq_length.mpr h


theorem calledBit_step (n C : Nat) (a : Action) (s s' : Sched) (i : Nat)
    (h : step n C a s = some s') :
    calledBit s' i = calledBit s i + callCount i [a] := by
  rcases step_cases n C a s s' h with
    ⟨rfl, hr, hl, rfl⟩ | ⟨rfl, hr, hl, hw, rfl⟩ | ⟨j, g, g', hg, hgs, hr, hcase⟩
  · simp only [calledBit, callCount, List.countP_cons, List.countP_nil]
    rcases Nat.lt_trichotomy i s.gs.length with hi | hi | hi
    · rw [List.getElem?_append_left hi]; simp
    · subst hi; simp [GPC.hasCalled]
    · rw [List.getElem?_eq_none (by simp; omega), List.getElem?_eq_none (by omega)]; simp
  · simp [calledBit, callCount]
  · have hj : j < s.gs.length := by
      by_contra hc
      rw [List.getElem?_eq_none (by omega)] at hg
      exact absurd hg (by simp)
    by_cases hij : j = i
    · subst hij
      simp only [calledBit, hgs, hg, List.getElem?_set_self hj]
      rcases hcase with ⟨rfl, rfl, rfl, -⟩ | ⟨ok, rfl, rfl, rfl, -⟩ | ⟨ok, rfl, rfl, rfl, -⟩ |
        ⟨ok, rfl, rfl, rfl, -⟩ | ⟨ok, rfl, rfl, rfl, -⟩ | ⟨ok, rfl, rfl, rfl, -⟩ <;>
        simp [callCount, GPC.hasCalled]
    · simp only [calledBit, hgs, List.getElem?_set_ne hij]
      rcases hcase with ⟨rfl, -⟩ | ⟨ok, rfl, -⟩ | ⟨ok, rfl, -⟩ |
        ⟨ok, rfl, -⟩ | ⟨ok, rfl, -⟩ | ⟨ok, rfl, -⟩ <;>
        simp [callCount, hij]

theorem callCount_cons (i : Nat) (a : Action) (rest : List Action) :
    callCount i (a :: rest) = callCount i [a] + callCount i rest := by
  simp only [callCount, List.countP_cons, List.countP_nil]
  omega

theorem calledBit_exec (n C : Nat) (i : Nat) : ∀ (acts : List Action) (s s' : Sched),
    exec n C acts s = some s' → calledBit s' i = calledBit s i + callCount i acts := by
  intro acts
  induction acts with
  | nil =>
    intro s s' h
    simp only [exec, Option.some.injEq] at h
    subst h
    simp [callCount]
  | cons a rest ih =>
    intro s s' h
    simp only [exec] at h
    cases hs : step n C a s with
    | none => simp [hs] at h
    | some s1 =>
      rw [hs] at h
      simp only [Option.some_bind] at h
      rw [ih s1 s' h, calledBit_step n C a s s1 i hs, callCount_cons i a rest]
      omega

theorem calledOk_step (n C : Nat) (a : Action) (s s' : Sched)
    (h : step n C a s = some s') :
    s'.gs.countP GPC.calledOk = s.gs.countP GPC.calledOk + okCallCount [a] := by
  rcases step_cases n C a s s' h with
    ⟨rfl, hr, hl, rfl⟩ | ⟨rfl, hr, hl, hw, rfl⟩ | ⟨j, g, g', hg, hgs, hr, hcase⟩
  · simp [okCallCount, GPC.calledOk]
  · simp [okCallCount]
  · have c := countP_set_add GPC.calledOk g g' s.gs j hg
    rw [hgs]
    rcases hcase with ⟨rfl, rfl, rfl, -⟩ | ⟨ok, rfl, rfl, rfl, -⟩ | ⟨ok, rfl, rfl, rfl, -⟩ |
      ⟨ok, rfl, rfl, rfl, -⟩ | ⟨ok, rfl, rfl, rfl, -⟩ | ⟨ok, rfl, rfl, rfl, -⟩
    all_goals
      simp only [GPC.calledOk, Bool.false_eq_true, if_false] at c
      simp only [okCallCount, List.countP_cons, List.countP_nil, Bool.false_eq_true, if_false]
      omega

theorem okCallCount_cons (a : Action) (rest : List Action) :
    okCallCount (a :: rest) = okCallCount [a] + okCallCount rest := by
  simp only [okCallCount, List.countP_cons, List.countP_nil]
  omega

theorem calledOk_exec (n C : Nat) : ∀ (acts : List Action) (s s' : Sched),
    exec n C acts s = some s' →
    s'.gs.countP GPC.calledOk = s.gs.countP GPC.calledOk + okCallCount acts := by
  intro acts
  induction acts with
  | nil =>
    intro s s' h
    simp only [exec, Option.some.injEq] at h
    subst h
    simp [okCallCount]
  | cons a rest ih =>
    intro s s' h
    simp only [exec] at h
    cases hs : step n C a s with
    | none => simp [hs] at h
    | some s1 =>
      rw [hs] at h
      simp only [Option.some_bind] at h
      rw [ih s1 s' h, calledOk_step n C a s s1 hs, okCallCount_cons a rest]
      omega

theorem countP_congr_mem {α : Type} (p q : α → Bool) (l : List α)
    (h : ∀ a ∈ l, p a = q a) : l.countP p = l.countP q := by
  induction l with
  | nil => rfl
  | cons x xs ih =>
    have hx := h x (List.mem_cons_self _ _)
    have ih' := ih (fun a ha => h a (List.mem_cons_of_mem _ ha))
    simp only [List.countP_cons, hx, ih']

/-- The facts that hold when `wg.Wait()` has returned. -/
theorem returned_facts (n C : Nat) (acts : List Action) (s : Sched)
    (h : exec n C acts Sched.init = some s) (hr : s.returned = true) :
    (∀ i, i < n → callCount i acts = 1) ∧ s.gs.length = n ∧ s.completedTasks = n ∧
    s.successCount = okCallCount acts ∧ (∀ g ∈ s.gs, ∃ ok, g = GPC.done ok) := by
  have hinv : Inv n C s := inv_exec n C acts _ _ (inv_init n C) h
  have hdone := all_done_of_returned n C s hinv hr
  have hlen := (hinv.ret hr).1
  refine ⟨?_, hlen, ?_, ?_, hdone⟩
  · intro i hi
    have hb := calledBit_exec n C i acts _ _ h
    have hi' : i < s.gs.length := by omega
    have hget : s.gs[i]? = some (s.gs[i]) := List.getElem?_eq_getElem hi'
    obtain ⟨ok, hok⟩ := hdone _ (List.getElem_mem hi')
    have h1 : calledBit s i = 1 := by
      simp [calledBit, hget, hok, GPC.hasCalled]
    have h0 : calledBit Sched.init i = 0 := by
      simp [calledBit, Sched.init]
    omega
  · rw [hinv.fin, ← hlen]
    apply List.countP_eq_length.mpr
    intro g hg
    obtain ⟨ok, rfl⟩ := hdone g hg
    rfl
  · have hc := calledOk_exec n C acts _ _ h
    have h0 : Sched.init.gs.countP GPC.calledOk = 0 := by simp [Sched.init]
    rw [hinv.succ, countP_congr_mem GPC.succeeded GPC.calledOk s.gs ?_]
    · omega
    · intro g hg
      obtain ⟨ok, rfl⟩ := hdone g hg
      rfl

/-! ## Claims about the scheduler -/

/-- C8: in a batch of `n` tasks with limit `C < n`, in every reachable state
the number of goroutines that hold a semaphore slot is the number of items in
the channel and is at most `C`; the completed counter starts at 0, never
decreases (a step adds at most one), never exceeds `n`, and equals `n` when
`wg.Wait()` has returned. -/
theorem C8_in_flight_bounded (n C : Nat) (_hC : C < n) :
    (∀ s, Reachable n C s →
      s.inFlight ≤ C ∧ s.semaphore = s.inFlight ∧ s.completedTasks ≤ n) ∧
    (∀ s a s', step n C a s = some s' →
      s.completedTasks ≤ s'.completedTasks ∧ s'.completedTasks ≤ s.completedTasks + 1) ∧
    Sched.init.completedTasks = 0 ∧
    (∀ s, Reachable n C s → s.returned = true → s.completedTasks = n) := by
  refine ⟨?_, ?_, rfl, ?_⟩
  · intro s hs
    have hinv := inv_reachable n C s hs
    refine ⟨?_, hinv.sem, ?_⟩
    · unfold Sched.inFlight
      rw [← hinv.sem]
      exact hinv.cap
    · rw [hinv.fin]
      exact Nat.le_trans (List.countP_le_length _) hinv.len
  · intro s a s' h
    exact completed_step n C a s s' h
  · intro s hs hr
    obtain ⟨acts, hacts⟩ := hs
    exact (returned_facts n C acts s hacts hr).2.2.1

/-- C8 (witness): five tasks with limit two; after the first five operations
of `demoSchedule` two tasks are in flight, which is the limit. -/
theorem C8_in_flight_bounded_witness :
    exec 5 2 (demoSchedule.take 5) Sched.init = some demoMidRun ∧
    demoMidRun.inFlight = 2 ∧ demoMidRun.inFlight ≤ 2 :=
  ⟨by decide, by decide,
    ((C8_in_flight_bounded 5 2 (by decide)).1 demoMidRun
      ⟨demoSchedule.take 5, by decide⟩).1⟩

/-! ## Lemmas on the planning loops of the set command -/

theorem appendCardTasks_eq (d : Downloader) : ∀ (cards : List Card) (allTasks : List Task),
    appendCardTasks d allTasks cards = allTasks ++ cards.flatMap (processCard d) := by
  intro cards
  induction cards with
  | nil => intro allTasks; simp [appendCardTasks]
  | cons card rest ih =>
    intro allTasks
    simp only [appendCardTasks, ih, List.flatMap_cons, List.append_assoc]

theorem findSet_none_iff (T : CaseTable) (m : Model) (setCode : String) :
    findSet T m.sets (normCode T setCode) = none ↔ recognized T m setCode = false := by
  unfold findSet recognized
  rw [List.find?_eq_none]
  simp

theorem recognized_of_findSet (T : CaseTable) (m : Model) (setCode : String) (set : Set)
    (h : findSet T m.sets (normCode T setCode) = some set) :
    recognized T m setCode = true ∧ set ∈ m.sets := by
  constructor
  · by_contra hc
    have := (findSet_none_iff T m setCode).mpr (by simpa using hc)
    rw [this] at h
    exact absurd h (by simp)
  · exact List.mem_of_find?_eq_some h

/-- The planning loop in closed form: the failed list gains the normalised
codes that are not recognised or whose listing fails, the task list gains the
tasks of the cards of the other codes, in request order. -/
theorem planSets_eq (T : CaseTable) (m : Model)
    (fetchSetCards : String → Except String (List Card)) :
    ∀ (setCodes : List String) (failed : List String) (allTasks : List Task),
    planSets T m fetchSetCards setCodes (failed, allTasks) =
      (failed ++ (setCodes.filter (fun c => !recognized T m c ||
          listingFails T m fetchSetCards c)).map (normCode T),
       allTasks ++ setCodes.flatMap (fun c =>
          (cardsOf T m fetchSetCards c).flatMap (processCard m.downloader))) := by
  intro setCodes
  induction setCodes with
  | nil => intro failed allTasks; simp [planSets]
  | cons c rest ih =>
    intro failed allTasks
    simp only [planSets]
    cases hf : findSet T m.sets (normCode T c) with
    | none =>
      have hr := (findSet_none_iff T m c).mp hf
      simp only [ih, List.filter_cons, hr, cardsOf, hf, List.flatMap_cons]
      simp
    | some set =>
      have hr := (recognized_of_findSet T m c set hf).1
      cases hc : fetchSetCards set.SearchURI with
      | error e =>
        simp only [ih, List.filter_cons, hr, cardsOf, listingFails, hf, hc, List.flatMap_cons]
        simp
      | ok cards =>
        simp only [ih, List.filter_cons, hr, cardsOf, listingFails, hf, hc, List.flatMap_cons,
          appendCardTasks_eq]
        simp

theorem completedLoop_eq (T : CaseTable) (m : Model) :
    ∀ (setCodes : List String) (completed : List String),
    completedLoop T m setCodes completed =
      completed ++ (setCodes.filter (recognized T m)).map (normCode T) := by
  intro setCodes
  induction setCodes with
  | nil => intro completed; simp [completedLoop]
  | cons c rest ih =>
    intro completed
    simp only [completedLoop]
    cases hf : findSet T m.sets (normCode T c) with
    | none =>
      have hr := (findSet_none_iff T m c).mp hf
      simp only [ih, List.filter_cons, hr]
      simp
    | some set =>
      have hr := (recognized_of_findSet T m c set hf).1
      simp only [ih, List.filter_cons, hr]
      simp

theorem downloadMultipleSetsCmd_msg (T : CaseTable) (m : Model)
    (fetchSetCards : String → Except String (List Card)) (setCodes : List String)
    (fin : Sched) :
    ((planSets T m fetchSetCards setCodes ([], [])).2 = [] →
      (downloadMultipleSetsCmd T m fetchSetCards setCodes fin).2 =
        .downloadComplete
          { success := false, message := "Nenhuma tarefa para executar",
            completed := [], failed := setCodes }) ∧
    ((planSets T m fetchSetCards setCodes ([], [])).2 ≠ [] →
      ∃ msg, (downloadMultipleSetsCmd T m fetchSetCards setCodes fin).2 =
          .downloadComplete msg ∧
        msg.success = decide (fin.successCount > 0) ∧
        msg.completed = (setCodes.filter (recognized T m)).map (normCode T) ∧
        msg.failed = (setCodes.filter (fun c => !recognized T m c ||
          listingFails T m fetchSetCards c)).map (normCode T)) := by
  have hplan := planSets_eq T m fetchSetCards setCodes [] []
  unfold downloadMultipleSetsCmd
  rcases hp : planSets T m fetchSetCards setCodes ([], []) with ⟨failed, allTasks⟩
  rw [hp] at hplan
  simp only [Prod.mk.injEq, List.nil_append] at hplan
  constructor
  · intro h0
    simp only at h0
    simp [h0]
  · intro h0
    simp only at h0
    have hlen : allTasks.length ≠ 0 := fun h => h0 (List.length_eq_zero.mp h)
    simp only [hlen, if_false]
    refine ⟨_, rfl, rfl, ?_, hplan.1⟩
    simp only [completedLoop_eq, List.nil_append]
    rfl

theorem flatMap_filter_of_nil {α β : Type} (p : α → Bool) (f : α → List β)
    (h : ∀ a, p a = false → f a = []) :
    ∀ l : List α, l.flatMap f = (l.filter p).flatMap f := by
  intro l
  induction l with
  | nil => rfl
  | cons a rest ih =>
    cases hp : p a with
    | false => simp [List.filter_cons, hp, h a hp, ih]
    | true => simp [List.filter_cons, hp, ih]

theorem cardsOf_unrecognized (T : CaseTable) (m : Model)
    (fetchSetCards : String → Except String (List Card)) (c : String)
    (h : recognized T m c = false) : cardsOf T m fetchSetCards c = [] := by
  unfold cardsOf
  rw [(findSet_none_iff T m c).mpr h]

theorem listingFails_false (T : CaseTable) (m : Model)
    (fetchSetCards : String → Except String (List Card))
    (hfetch : ∀ set ∈ m.sets, ∃ cards, fetchSetCards set.SearchURI = .ok cards)
    (c : String) : listingFails T m fetchSetCards c = false := by
  unfold listingFails
  cases hf : findSet T m.sets (normCode T c) with
  | none => rfl
  | some set =>
    obtain ⟨cards, hc⟩ := hfetch set (recognized_of_findSet T m c set hf).2
    simp [hc]

theorem flatMap_eq_nil_of_forall {α β : Type} (f : α → List β) (l : List α)
    (h : ∀ a ∈ l, f a = []) : l.flatMap f = [] := by
  induction l with
  | nil => rfl
  | cons a rest ih =>
    simp only [List.flatMap_cons, h a (List.mem_cons_self _ _),
      ih (fun b hb => h b (List.mem_cons_of_mem _ hb)), List.append_nil]


/-! ## Claims about the set-level command -/

/-- C9: with the card listings of the catalog's sets fetched successfully, the
task list of a set-level batch is the concatenation, in request order, of
`processCard` over the cards of exactly the recognised codes, and it is the
planned count the command stores. A requested code that, trimmed and
lower-cased, matches no catalog code is in the failed list of the returned
message: in trimmed lower-cased form when a task was planned (the failed list
is then exactly those codes), as requested when no task was planned. -/
theorem C9_unknown_code_skipped (T : CaseTable) (m : Model)
    (fetchSetCards : String → Except String (List Card)) (setCodes : List String)
    (fin : Sched)
    (hfetch : ∀ set ∈ m.sets, ∃ cards, fetchSetCards set.SearchURI = .ok cards) :
    (planSets T m fetchSetCards setCodes ([], [])).2 =
      (setCodes.filter (recognized T m)).flatMap (fun c =>
        (cardsOf T m fetchSetCards c).flatMap (processCard m.downloader)) ∧
    (downloadMultipleSetsCmd T m fetchSetCards setCodes fin).1.totalTasks =
      (planSets T m fetchSetCards setCodes ([], [])).2.length ∧
    (∀ c ∈ setCodes, recognized T m c = false →
      cardsOf T m fetchSetCards c = [] ∧
      ∃ msg, (downloadMultipleSetsCmd T m fetchSetCards setCodes fin).2 =
          .downloadComplete msg ∧
        (c ∈ msg.failed ∨ normCode T c ∈ msg.failed)) ∧
    ((planSets T m fetchSetCards setCodes ([], [])).2 ≠ [] →
      ∃ msg, (downloadMultipleSetsCmd T m fetchSetCards setCodes fin).2 =
          .downloadComplete msg ∧
        msg.failed = (setCodes.filter (fun c => !recognized T m c)).map (normCode T)) := by
  have hplan := planSets_eq T m fetchSetCards setCodes [] []
  have hmsg := downloadMultipleSetsCmd_msg T m fetchSetCards setCodes fin
  have hfail : (fun c => !recognized T m c || listingFails T m fetchSetCards c) =
      (fun c => !recognized T m c) := by
    funext c
    rw [listingFails_false T m fetchSetCards hfetch c, Bool.or_false]
  rw [hfail] at hmsg
  refine ⟨?_, ?_, ?_, ?_⟩
  · rw [hplan]
    simp only [List.nil_append]
    exact flatMap_filter_of_nil (recognized T m) _
      (fun c hc => by simp [cardsOf_unrecognized T m fetchSetCards c hc]) setCodes
  · unfold downloadMultipleSetsCmd
    rcases hp : planSets T m fetchSetCards setCodes ([], []) with ⟨failed, allTasks⟩
    by_cases h0 : allTasks.length = 0
    · simp only [h0, if_true]
    · simp only [h0, if_false]
  · intro c hc hr
    refine ⟨cardsOf_unrecognized T m fetchSetCards c hr, ?_⟩
    by_cases h0 : (planSets T m fetchSetCards setCodes ([], [])).2 = []
    · exact ⟨_, hmsg.1 h0, Or.inl hc⟩
    · obtain ⟨msg, h1, -, -, h4⟩ := hmsg.2 h0
      refine ⟨msg, h1, Or.inr ?_⟩
      rw [h4]
      exact List.mem_map.mpr ⟨c, List.mem_filter.mpr ⟨hc, by simp [hr]⟩, rfl⟩
  · intro h0
    obtain ⟨msg, h1, -, -, h4⟩ := hmsg.2 h0
    exact ⟨msg, h1, h4⟩

/-- C9 (witness): the request `["dom", "zzz"]` against a catalog that holds
only "dom": the planned tasks are those of the two cards of "dom", and the
failed list of the message is `["zzz"]`. -/
theorem C9_unknown_code_skipped_witness :
    (planSets asciiCase demoModel demoFetch ["dom", "zzz"] ([], [])).2 =
      [⟨"u-elves", "Llanowar Elves", "dom"⟩, ⟨"u-opt", "Opt", "dom"⟩] ∧
    ∃ msg, (downloadMultipleSetsCmd asciiCase demoModel demoFetch ["dom", "zzz"]
        demoFinalTwo).2 = .downloadComplete msg ∧ msg.failed = ["zzz"] := by
  have h := C9_unknown_code_skipped asciiCase demoModel demoFetch ["dom", "zzz"] demoFinalTwo
    (fun set hs => by
      simp only [demoModel, demoSets, List.mem_singleton] at hs
      subst hs
      exact ⟨_, rfl⟩)
  refine ⟨h.1.trans (by decide), ?_⟩
  obtain ⟨msg, h1, h2⟩ := h.2.2.2 (by decide)
  exact ⟨msg, h1, h2.trans (by decide)⟩

/-- C10 (counterexample): the catalog holds "dom" but "dom" has no card, so no
task is planned: the requested code "dom" is recognised, yet the completed list
of the result is empty and "dom" is in the failed list. -/
theorem C10_counterexample :
    recognized asciiCase demoModel "dom" = true ∧
    (downloadMultipleSetsCmd asciiCase demoModel emptyFetch ["dom"] Sched.init).2 =
      .downloadComplete
        { success := false, message := "Nenhuma tarefa para executar",
          completed := [], failed := ["dom"] } := by
  decide

/-- C10 (amended): in the result of a set-level batch that planned at least one
task, the completed list holds, in request order, exactly the requested codes
(trimmed and lower-cased) that are recognised in the catalog, whatever the
number of successful image tasks, and the failed list holds exactly the
requested codes (trimmed and lower-cased) that are not found in the catalog or
whose card listing could not be fetched. When no task was planned the
completed list is empty and the failed list is the list of requested codes. -/
theorem C10_completed_means_recognized (T : CaseTable) (m : Model)
    (fetchSetCards : String → Except String (List Card)) (setCodes : List String)
    (fin : Sched) :
    ((planSets T m fetchSetCards setCodes ([], [])).2 ≠ [] →
      ∃ msg, (downloadMultipleSetsCmd T m fetchSetCards setCodes fin).2 =
          .downloadComplete msg ∧
        msg.completed = (setCodes.filter (recognized T m)).map (normCode T) ∧
        msg.failed = (setCodes.filter (fun c => !recognized T m c ||
          listingFails T m fetchSetCards c)).map (normCode T)) ∧
    ((planSets T m fetchSetCards setCodes ([], [])).2 = [] →
      ∃ msg, (downloadMultipleSetsCmd T m fetchSetCards setCodes fin).2 =
          .downloadComplete msg ∧
        msg.completed = [] ∧ msg.failed = setCodes) := by
  have hmsg := downloadMultipleSetsCmd_msg T m fetchSetCards setCodes fin
  constructor
  · intro h0
    obtain ⟨msg, h1, -, h3, h4⟩ := hmsg.2 h0
    exact ⟨msg, h1, h3, h4⟩
  · intro h0
    exact ⟨_, hmsg.1 h0, rfl, rfl⟩

/-- C10 (witness): the request `["DOM", "zzz"]` with one successful and one
failed image task: the completed list is `["dom"]`, the failed list `["zzz"]`. -/
theorem C10_completed_means_recognized_witness :
    ∃ msg, (downloadMultipleSetsCmd asciiCase demoModel demoFetch ["DOM", "zzz"]
        demoFinalTwo).2 = .downloadComplete msg ∧
      msg.completed = ["dom"] ∧ msg.failed = ["zzz"] := by
  obtain ⟨msg, h1, h2, h3⟩ :=
    (C10_completed_means_recognized asciiCase demoModel demoFetch ["DOM", "zzz"]
      demoFinalTwo).1 (by decide)
  exact ⟨msg, h1, h2.trans (by decide), h3.trans (by decide)⟩

/-! ## Claims about the image store -/

/-- C4 (counterexample): with the default download root "./downloads", the
set code "dom" and the logical name "a:b", the destination path is
"downloads/DOM/ab.full.jpg", which contains the separator "/". -/
theorem C4_counterexample :
    ':' ∈ ("a:b" : String).data ∧
    destPath asciiCase demoDownloader "a:b" "dom" = "downloads/DOM/ab.full.jpg" ∧
    '/' ∈ illegalChars ∧ '/' ∈ (destPath asciiCase demoDownloader "a:b" "dom").data := by
  decide

/-- C4 (amended): for every logical name, download root and set code, the last
element of the destination path computed by `downloadImage` is the sanitised
name followed by ".full.jpg", and that element contains none of the characters
`: ? " * < > | / \`; the path is this element, alone or after a directory part
that ends in a separator. The directory part (download root and upper-cased
set code, joined by separators) is not sanitised. -/
theorem C4_destination_file_name (T : CaseTable) (d : Downloader)
    (fileName setCode : String) :
    filepathBase (destPath T d fileName setCode) = sanitize fileName ++ ".full.jpg" ∧
    (∀ c ∈ illegalChars, c ∉ (sanitize fileName ++ ".full.jpg").data) ∧
    (∃ dir : List Char, (destPath T d fileName setCode).data =
        dir ++ (sanitize fileName ++ ".full.jpg").data ∧
      (dir = [] ∨ ∃ x, dir = x ++ ['/'])) := by
  have hb := fileName_plain fileName
  obtain ⟨rooted, st, hp⟩ :=
    filepathJoin_plain (setDirOf T d setCode) (sanitize fileName ++ ".full.jpg") hb
  refine ⟨?_, ?_, ?_⟩
  · exact filepathBase_render rooted st _ hb _ hp
  · intro c hc hmem
    rw [String.data_append] at hmem
    rcases List.mem_append.mp hmem with h1 | h1
    · exact sanitize_not_illegal fileName c hc h1
    · have hsuffix : ∀ c ∈ illegalChars, c ∉ (".full.jpg" : String).data := by decide
      exact hsuffix c hc h1
  · obtain ⟨pre, hpre, hshape⟩ :=
      renderPath_snoc rooted st (sanitize fileName ++ ".full.jpg").data
    exact ⟨pre, by unfold destPath; rw [hp, hpre], hshape⟩

/-- C5: for every logical name, the sanitised file name that `downloadImage`
puts before ".full.jpg" contains none of the nine illegal characters
(`: ? " * < > | / \`), no apostrophe and no comma. -/
theorem C5_sanitize_strips (fileName : String) :
    ∀ c ∈ strippedChars, c ∉ (sanitize fileName).data := by
  intro c hc
  simp only [strippedChars, List.mem_cons, List.mem_singleton, List.not_mem_nil,
    or_false] at hc
  simp only [sanitize, invalidChars, List.foldl]
  rcases hc with h | h | h | h | h | h | h | h | h | h | h
  all_goals
    subst h
    repeat (first
      | exact not_mem_replaceAll_single _ _ _ _ (by decide) (by decide)
      | refine not_mem_replaceAll _ _ _ _ (by decide) ?_)


/-- C5 (witness): the name "Fire // Ice: O'Neil, x?" is sanitised to
"Fire Ice ONeil x", which has no colon. -/
theorem C5_sanitize_strips_witness :
    sanitize "Fire // Ice: O'Neil, x?" = "Fire Ice ONeil x" ∧
    ':' ∈ strippedChars ∧ ':' ∉ (sanitize "Fire // Ice: O'Neil, x?").data :=
  ⟨by decide, by decide, C5_sanitize_strips "Fire // Ice: O'Neil, x?" ':' (by decide)⟩

/-- C6: when a file already exists at the destination path of a task, in a
file system where every file lies in an existing directory (and the download
root or the set code is not empty), `downloadImage` returns `nil` and leaves
the world as it is: the files are unchanged and the log of network requests
has not grown. A second call right after therefore does the same. -/
theorem C6_existing_file_is_skipped (T : CaseTable) (env env2 : Env) (d : Downloader)
    (w : World) (url fileName setCode : String)
    (hroot : d.downloadDir ≠ "" ∨ setCode ≠ "")
    (hwf : w.WellFormed)
    (hfile : w.isFile (destPath T d fileName setCode) = true) :
    downloadImage T env d w url fileName setCode = (none, w) ∧
    downloadImage T env2 d (downloadImage T env d w url fileName setCode).2
      url fileName setCode = (none, w) ∧
    (downloadImage T env d w url fileName setCode).2.requests = w.requests ∧
    (downloadImage T env d w url fileName setCode).2.files = w.files := by
  have key : ∀ e : Env, downloadImage T e d w url fileName setCode = (none, w) := by
    intro e
    obtain ⟨x, hx, hset⟩ := setDir_clean T d setCode hroot
    have hb := fileName_plain fileName
    have hdest : destPath T d fileName setCode =
        filepathJoin [⟨cleanChars x⟩, sanitize fileName ++ ".full.jpg"] := by
      unfold destPath setDirOf
      rw [hset]
    have hdir : w.isDir ⟨cleanChars x⟩ = true := by
      have hmem : destPath T d fileName setCode ∈ w.files.map Prod.fst := by
        simpa [World.isFile] using hfile
      have := hwf _ hmem
      rw [hdest, filepathDir_join x hx _ hb] at this
      exact this
    have hstat : w.stat (filepathJoin [⟨cleanChars x⟩, sanitize fileName ++ ".full.jpg"]) =
        true := by
      rw [← hdest]
      simp [World.stat, hfile]
    unfold downloadImage
    simp only [hset, mkdirAll, hdir, if_true, hstat]
  have h1 := key env
  refine ⟨h1, ?_, ?_, ?_⟩
  · rw [h1]
    exact key env2
  · rw [h1]
  · rw [h1]

/-- C6 (witness): the image of "Opt" is stored in `demoWorld`; two calls in a
row, without network, succeed and leave the world as it is. -/
theorem C6_existing_file_is_skipped_witness :
    downloadImage asciiCase offlineEnv demoDownloader demoWorld "u-opt" "Opt" "dom" =
      (none, demoWorld) ∧
    downloadImage asciiCase offlineEnv demoDownloader
      (downloadImage asciiCase offlineEnv demoDownloader demoWorld "u-opt" "Opt" "dom").2
      "u-opt" "Opt" "dom" = (none, demoWorld) :=
  have h := C6_existing_file_is_skipped asciiCase offlineEnv offlineEnv demoDownloader
    demoWorld "u-opt" "Opt" "dom" (Or.inl (by decide)) (by decide) (by decide)
  ⟨h.1, h.2.1⟩

/-! ## Lemmas on `Update` -/

theorem frame_refl (m : model) : Frame m m := ⟨Or.inl rfl, Or.inl rfl, Or.inl rfl⟩

theorem heldIs_nil (m : model) : HeldIs m [] := by
  intro c hc; simp at hc

theorem updateMenuKey_frame (T : CaseTable) (E : UIEnv) (m : model) (key : String) :
    Frame m (updateMenuKey T E m key).1 ∧
    HeldIs (updateMenuKey T E m key).1 (updateMenuKey T E m key).2 := by
  simp only [updateMenuKey]
  split_ifs <;>
    simp [Frame, HeldIs, Cmd.held, updateSetList]

theorem updateSetSearchKey_frame (T : CaseTable) (E : UIEnv) (m : model) (key : String) :
    Frame m (updateSetSearchKey T E m key).1 ∧
    HeldIs (updateSetSearchKey T E m key).1 (updateSetSearchKey T E m key).2 := by
  simp only [updateSetSearchKey]
  split_ifs <;>
    simp [Frame, HeldIs, Cmd.held, updateSetList]

theorem updateSetDownloadKey_frame (T : CaseTable) (E : UIEnv) (m : model) (key : String) :
    Frame m (updateSetDownloadKey T E m key).1 ∧
    HeldIs (updateSetDownloadKey T E m key).1 (updateSetDownloadKey T E m key).2 := by
  simp only [updateSetDownloadKey]
  split_ifs <;>
    simp [Frame, HeldIs, Cmd.held]

theorem updateCardDownloadKey_frame (E : UIEnv) (m : model) (key : String) :
    Frame m (updateCardDownloadKey E m key).1 ∧
    HeldIs (updateCardDownloadKey E m key).1 (updateCardDownloadKey E m key).2 := by
  simp only [updateCardDownloadKey]
  split_ifs <;>
    simp [Frame, HeldIs, Cmd.held]


theorem configCommit_frame (E : UIEnv) (m : model) : Frame m (configCommit E m) := by
  simp only [configCommit]
  split_ifs with h0 hv h2
  · cases E.mkdirAll (trimSpace m.textInput.value) <;>
      simp [Frame, updateDownloaderConfig]
  · simp [Frame]
  · cases hw : atoi (trimSpace m.textInput.value) with
    | none => simp [Frame]
    | some workers =>
      by_cases hr : workers > 0 ∧ workers ≤ 50
      · have h1 : 1 ≤ workers := by omega
        simp [hr, Frame, updateDownloaderConfig, h1]
      · simp [hr, Frame]
  · simp [Frame]

theorem configSelect_frame (E : UIEnv) (m : model) : Frame m (configSelect E m) := by
  simp only [configSelect]
  split_ifs <;> simp [Frame, updateDownloaderConfig]

theorem updateConfigKey_frame (E : UIEnv) (m : model) (key : String) :
    Frame m (updateConfigKey E m key).1 ∧
    HeldIs (updateConfigKey E m key).1 (updateConfigKey E m key).2 := by
  simp only [updateConfigKey]
  split_ifs
  all_goals first
    | exact ⟨configCommit_frame E m, heldIs_nil _⟩
    | exact ⟨configSelect_frame E m, heldIs_nil _⟩
    | simp [Frame, HeldIs, Cmd.held]

theorem update_frame (T : CaseTable) (E : UIEnv) (m : model) (msg : TeaMsg) :
    Frame m (Update T E m msg).1 ∧ HeldIs (Update T E m msg).1 (Update T E m msg).2 := by
  cases msg with
  | key key =>
    simp only [Update]
    cases m.state with
    | menuState => exact updateMenuKey_frame T E m key
    | setSearchState => exact updateSetSearchKey_frame T E m key
    | setDownloadState => exact updateSetDownloadKey_frame T E m key
    | cardDownloadState => exact updateCardDownloadKey_frame E m key
    | setListState => simp only []; split_ifs <;> simp [Frame, HeldIs]
    | configState => exact updateConfigKey_frame E m key
  | setListMsg sets =>
    simp only [Update]
    split_ifs <;> simp [Frame, HeldIs, updateSetList]
  | progressUpdateMsg current total message =>
    simp only [Update]
    split_ifs <;> simp [Frame, HeldIs, Cmd.held]
  | downloadCompleteMsg dmsg => simp [Update, updateDownloadComplete, Frame, HeldIs]
  | errorMsg err => simp [Update, Frame, HeldIs]
  | other => simp [Update, Frame, HeldIs, Cmd.held]

theorem programInv_initial : ProgramInv initialModel := by
  simp [ProgramInv, initialModel]

theorem programInv_of_frame (m m' : model) (h : ProgramInv m) (hf : Frame m m') :
    ProgramInv m' := by
  obtain ⟨⟨h1, h2⟩, h3, h4⟩ := h
  obtain ⟨f1, f2, f3⟩ := hf
  refine ⟨?_, ?_, ?_⟩
  · rcases f1 with e | e
    · rw [e]; exact ⟨h1, h2⟩
    · exact e
  · rcases f2 with e | e
    · rw [e]; exact h3
    · exact e
  · rcases f3 with e | e
    · rw [e]; exact h4
    · exact e

theorem programInv_runUpdates (T : CaseTable) :
    ∀ (steps : List (UIEnv × TeaMsg)) (m : model), ProgramInv m →
      ProgramInv (runUpdates T steps m) := by
  intro steps
  induction steps with
  | nil => intro m h; exact h
  | cons step rest ih =>
    intro m h
    obtain ⟨E, msg⟩ := step
    simp only [runUpdates]
    exact ih _ (programInv_of_frame m _ h (update_frame T E m msg).1)

theorem programInv_reachable (T : CaseTable) (m : model) (h : ProgramReachable T m) :
    ProgramInv m := by
  obtain ⟨steps, rfl⟩ := h
  exact programInv_runUpdates T steps _ programInv_initial

/-- The model a command of `Update` holds satisfies the invariant. -/
theorem programInv_held (T : CaseTable) (E : UIEnv) (m : model) (msg : TeaMsg)
    (h : ProgramReachable T m) (c : Cmd) (mc : model)
    (hc : c ∈ (Update T E m msg).2) (hm : c.held = some mc) : ProgramInv mc := by
  have hf := update_frame T E m msg
  rw [hf.2 c hc mc hm]
  exact programInv_of_frame m _ (programInv_reachable T m h) hf.1

/-! ## Further claims about the planner, the commands and the file name -/

/-- C11: a card without own image-variant mapping and without faces yields no
task, under every layout and preferred quality. A set-level batch whose cards
all plan no task stores a planned count of zero and returns a result with
success flag false; so does a card-level batch whose prints all plan no task
(its scheduler run of zero tasks returns with success count zero). -/
theorem C11_no_images_no_tasks :
    (∀ (d : Downloader) (card : Card), card.ImageURIs = [] → card.CardFaces = [] →
      processCard d card = []) ∧
    (∀ (T : CaseTable) (m : Model) (fetchSetCards : String → Except String (List Card))
      (setCodes : List String) (fin : Sched),
      (∀ c ∈ setCodes, ∀ card ∈ cardsOf T m fetchSetCards c,
        processCard m.downloader card = []) →
      (downloadMultipleSetsCmd T m fetchSetCards setCodes fin).1.totalTasks = 0 ∧
      ∃ msg, (downloadMultipleSetsCmd T m fetchSetCards setCodes fin).2 =
          .downloadComplete msg ∧ msg.success = false) ∧
    (∀ (m : Model) (fetchCard : String → Except String Card)
      (fetchSetCards : String → Except String (List Card)) (cardName : String)
      (card : Card) (prints : List Card) (acts : List Action) (fin : Sched),
      fetchCard cardName = .ok card → fetchSetCards card.PrintsSearchURI = .ok prints →
      (∀ p ∈ prints, processCard m.downloader p = []) →
      exec 0 m.capacity acts Sched.init = some fin → fin.returned = true →
      (downloadCardCmd m fetchCard fetchSetCards cardName fin).1.totalTasks = 0 ∧
      ∃ msg, (downloadCardCmd m fetchCard fetchSetCards cardName fin).2 =
          .downloadComplete msg ∧ msg.success = false) := by
  refine ⟨processCard_no_images, ?_, ?_⟩
  · intro T m fetchSetCards setCodes fin hall
    have hplan : (planSets T m fetchSetCards setCodes ([], [])).2 = [] := by
      rw [planSets_eq]
      simp only [List.nil_append]
      apply flatMap_eq_nil_of_forall
      intro c hc
      exact flatMap_eq_nil_of_forall _ _ (hall c hc)
    have hmsg := (downloadMultipleSetsCmd_msg T m fetchSetCards setCodes fin).1 hplan
    refine ⟨?_, _, hmsg, rfl⟩
    unfold downloadMultipleSetsCmd
    rcases hp : planSets T m fetchSetCards setCodes ([], []) with ⟨failed, allTasks⟩
    rw [hp] at hplan
    simp only at hplan
    subst hplan
    simp
  · intro m fetchCard fetchSetCards cardName card prints acts fin hc hp hall hexec hr
    have htasks : appendCardTasks m.downloader [] prints = [] := by
      rw [appendCardTasks_eq]
      simpa using flatMap_eq_nil_of_forall _ _ hall
    have hinv : Inv 0 m.capacity fin := inv_exec 0 m.capacity acts _ _ (inv_init _ _) hexec
    have hgs : fin.gs = [] := List.length_eq_zero.mp (Nat.le_zero.mp hinv.len)
    have hsucc : fin.successCount = 0 := by rw [hinv.succ, hgs]; rfl
    unfold downloadCardCmd
    simp only [hc, hp, htasks, hsucc]
    exact ⟨rfl, _, rfl, by simp⟩

/-- C11 (witness): the catalog's set "dom" holds one card without any image;
the set-level batch stores a planned count of zero and reports no success. -/
theorem C11_no_images_no_tasks_witness :
    (downloadMultipleSetsCmd asciiCase demoModel
        (fun _ => .ok [{ Name := "Blank", Layout := "normal", ImageURIs := [],
                         CardFaces := [], Set := "dom", PrintsSearchURI := "" }])
        ["dom"] Sched.init).1.totalTasks = 0 :=
  (C11_no_images_no_tasks.2.1 asciiCase demoModel
    (fun _ => .ok [{ Name := "Blank", Layout := "normal", ImageURIs := [],
                     CardFaces := [], Set := "dom", PrintsSearchURI := "" }])
    ["dom"] Sched.init (by decide)).1

/-- C12: for a card with layout adventure, `processCard` plans from the card's
own mapping only: the result is the task that the quality chain selects there
(or none), it does not depend on the faces, and every emitted task is named
with the text of the full name before the first occurrence of the separator
`" //"` (a space and two slashes), which is the whole name when the separator
does not occur. A card named "A // B" yields the logical name "A". -/
theorem C12_adventure_name (d : Downloader) (card : Card)
    (hl : card.Layout = "adventure") :
    (processCard d card =
      match chainURL d.quality card.ImageURIs with
      | some url => if url ≠ "" then [⟨url, splitHead card.Name " //", card.Set⟩] else []
      | none => []) ∧
    (∀ faces : List CardFace,
      processCard d { card with CardFaces := faces } = processCard d card) ∧
    (∀ t ∈ processCard d card, t.cardName = splitHead card.Name " //") ∧
    (strContains card.Name " //" = false → splitHead card.Name " //" = card.Name) ∧
    (strContains card.Name " //" = true →
      ∃ rest, card.Name.data = (splitHead card.Name " //").data ++ [' ', '/', '/'] ++ rest ∧
        ∀ p r, card.Name.data = p ++ [' ', '/', '/'] ++ r →
          (splitHead card.Name " //").data.length ≤ p.length) ∧
    (card.Name = "A // B" → splitHead card.Name " //" = "A") := by
  have hown : ∀ faces : List CardFace, processCard d { card with CardFaces := faces } =
      match chainURL d.quality card.ImageURIs with
      | some url => if url ≠ "" then [⟨url, splitHead card.Name " //", card.Set⟩] else []
      | none => [] := by
    intro faces
    unfold processCard
    simp only []
    rw [if_pos hl, tryDownloadWithFallback_eq]
    cases chainURL d.quality card.ImageURIs with
    | none => rfl
    | some url => by_cases hu : url = "" <;> simp [hu]
  have hmain := hown card.CardFaces
  have hsep : (" //" : String).data = [' ', '/', '/'] := rfl
  refine ⟨hmain, ?_, ?_, ?_, ?_, ?_⟩
  · intro faces
    rw [hown faces, hmain]
  · intro t ht
    rw [hmain] at ht
    cases hc : chainURL d.quality card.ImageURIs with
    | none => simp [hc] at ht
    | some url =>
      by_cases hu : url = ""
      · simp [hc, hu] at ht
      · simp [hc, hu] at ht
        simp [ht]
  · intro hn
    have hni : ¬ (" //" : String).data <:+: card.Name.data := by
      simpa [strContains] using hn
    unfold splitHead
    rw [beforeSep_of_absent _ _ hni]
  · intro hy
    have hi : (" //" : String).data <:+: card.Name.data := by
      simpa [strContains] using hy
    obtain ⟨rest, hrest⟩ := beforeSep_of_present _ _ hi
    refine ⟨rest, ?_, ?_⟩
    · rw [← hsep]; exact hrest
    · intro p r hp
      rw [← hsep] at hp
      exact beforeSep_first _ _ p r hp
  · intro hname
    rw [hname]
    decide

/-- C12 (witness): the adventure card "Bonecrusher Giant // Stomp" with
faces that carry images of their own is planned as one task named
"Bonecrusher Giant". -/
theorem C12_adventure_name_witness :
    processCard demoDownloader
      ⟨"Bonecrusher Giant // Stomp", "adventure", [("large", "u-giant")],
        [⟨"Bonecrusher Giant", [("large", "f1")]⟩, ⟨"Stomp", [("large", "f2")]⟩], "eld", ""⟩ =
      [⟨"u-giant", "Bonecrusher Giant", "eld"⟩] :=
  (C12_adventure_name demoDownloader
    ⟨"Bonecrusher Giant // Stomp", "adventure", [("large", "u-giant")],
      [⟨"Bonecrusher Giant", [("large", "f1")]⟩, ⟨"Stomp", [("large", "f2")]⟩], "eld", ""⟩
    rfl).1.trans (by decide)

/-- C13 (failing input): the single pass of `strings.ReplaceAll(fileName, "  ", " ")`
turns three spaces into two, and the removal of an apostrophe after that pass
joins the spaces around it: both sanitised names contain two consecutive
spaces. -/
theorem C13_double_space_survives :
    sanitize "Fire   Ice" = "Fire  Ice" ∧
    [' ', ' '] <:+: (sanitize "Fire   Ice").data ∧
    sanitize "Fire ' Ice" = "Fire  Ice" ∧
    [' ', ' '] <:+: (sanitize "Fire ' Ice").data := by
  decide

/-! ## Claims about the program model -/

/-- C15: in every model reachable from `initialModel` through `Update`, and in
every model held by a command that `Update` then returns (the model whose
`maxWorkers` sizes the scheduler's channel), `maxWorkers` lies between 1 and 50.
On "enter" in the settings screen with the workers entry being edited, the
limit becomes the entered value when the trimmed text parses (`strconv.Atoi`)
as an integer `w` with `1 ≤ w ≤ 50`, and stays as it was otherwise. -/
theorem C15_worker_limit_in_range (T : CaseTable) :
    (∀ m, ProgramReachable T m → 1 ≤ m.maxWorkers ∧ m.maxWorkers ≤ 50) ∧
    (∀ (E : UIEnv) (m : model) (msg : TeaMsg) (c : Cmd) (mc : model),
      ProgramReachable T m → c ∈ (Update T E m msg).2 → c.held = some mc →
      1 ≤ mc.maxWorkers ∧ mc.maxWorkers ≤ 50 ∧
      1 ≤ mc.toModel.capacity ∧ mc.toModel.capacity ≤ 50) ∧
    (∀ (E : UIEnv) (m : model), m.state = .configState → m.textInput.focused = true →
      m.currentMenu = 2 →
      (Update T E m (.key "enter")).1.maxWorkers =
        match atoi (trimSpace m.textInput.value) with
        | some w => if 1 ≤ w ∧ w ≤ 50 then w else m.maxWorkers
        | none => m.maxWorkers) := by
  refine ⟨?_, ?_, ?_⟩
  · intro m h
    exact (programInv_reachable T m h).1
  · intro E m msg c mc h hc hm
    have := (programInv_held T E m msg h c mc hc hm).1
    refine ⟨this.1, this.2, ?_, ?_⟩ <;> (unfold Model.capacity; omega)
  · intro E m hs hf hm
    simp only [Update, hs, updateConfigKey, hf, configCommit, hm]
    cases atoi (trimSpace m.textInput.value) with
    | none => simp
    | some w =>
      by_cases hr : w > 0 ∧ w ≤ 50
      · have h1 : 1 ≤ w ∧ w ≤ 50 := ⟨by omega, hr.2⟩
        simp [hr, h1, updateDownloaderConfig]
      · have h1 : ¬ (1 ≤ w ∧ w ≤ 50) := fun h => hr ⟨by omega, h.2⟩
        simp [hr, h1]

/-- C15 (witness): with the workers entry being edited, "25" and " +7 " are
accepted, while "0", "51", "abc" and the empty text leave the limit at 10. -/
theorem C15_worker_limit_in_range_witness :
    (Update asciiCase demoUIEnv (editingWorkers "25") (.key "enter")).1.maxWorkers = 25 ∧
    (Update asciiCase demoUIEnv (editingWorkers " +7 ") (.key "enter")).1.maxWorkers = 7 ∧
    (Update asciiCase demoUIEnv (editingWorkers "0") (.key "enter")).1.maxWorkers = 10 ∧
    (Update asciiCase demoUIEnv (editingWorkers "51") (.key "enter")).1.maxWorkers = 10 ∧
    (Update asciiCase demoUIEnv (editingWorkers "abc") (.key "enter")).1.maxWorkers = 10 ∧
    (Update asciiCase demoUIEnv (editingWorkers "") (.key "enter")).1.maxWorkers = 10 :=
  ⟨((C15_worker_limit_in_range asciiCase).2.2 demoUIEnv (editingWorkers "25")
      rfl rfl rfl).trans (by decide),
    by decide, by decide, by decide, by decide, by decide⟩

/-- C14 (failing input): the counters that the scheduler writes are those of
the command's own copy of the model. In every model the program can be in, the
progress read of `tickProgress` and `renderDownload` gives `(0, 0)`, and every
`tickProgress` command that `Update` returns delivers "0/0". In the session
`demoSession` the set command of "dom" plans and completes two tasks and leaves
`completedTasks = 2`, `totalTasks = 2` in its copy, while the progress read on
the program's model gives `(0, 0)` before and after the completion message. -/
theorem C14_progress_read_stays_zero :
    (∀ (T : CaseTable) (m : model), ProgramReachable T m → progressRead m = (0, 0)) ∧
    (∀ (T : CaseTable) (E : UIEnv) (m : model) (msg : TeaMsg) (mc : model),
      ProgramReachable T m → Cmd.tickProgress mc ∈ (Update T E m msg).2 →
      tickProgressMsg mc = .progressUpdateMsg 0 0 "Baixando... 0/0") ∧
    (Cmd.downloadMultipleSetsCmd (runUpdates asciiCase demoSession initialModel) ["dom"] ∈
      (Update asciiCase demoUIEnv (runUpdates asciiCase (demoSession.take 3) initialModel)
        (.key "enter")).2) ∧
    exec 2 (runUpdates asciiCase demoSession initialModel).toModel.capacity demoScheduleTwo
      Sched.init = some demoFinalTwo ∧
    (downloadMultipleSetsCmd asciiCase (runUpdates asciiCase demoSession initialModel).toModel
      demoFetch ["dom"] demoFinalTwo).1.completedTasks = 2 ∧
    (downloadMultipleSetsCmd asciiCase (runUpdates asciiCase demoSession initialModel).toModel
      demoFetch ["dom"] demoFinalTwo).1.totalTasks = 2 ∧
    progressRead (runUpdates asciiCase demoSession initialModel) = (0, 0) ∧
    progressRead (runUpdates asciiCase
      (demoSession ++ [(demoUIEnv, .downloadCompleteMsg
        { success := true, message := "Download finalizado: 1 imagens processadas",
          completed := ["dom"], failed := [] })]) initialModel) = (0, 0) := by
  refine ⟨?_, ?_, by decide, by decide, by decide, by decide, by decide, by decide⟩
  · intro T m h
    have := programInv_reachable T m h
    simp [progressRead, this.2.1, this.2.2]
  · intro T E m msg mc h hc
    have := programInv_held T E m msg h _ mc hc rfl
    simp only [tickProgressMsg, this.2.1, this.2.2]
    rfl

end MagicDownloader
